import Mathlib

/-!
# A shallow embedding of the ron-memory-allocator sources

This file models the two allocators of the repository:

* `variable_size_allocatoron.c` — a variable-size allocator over a
  256-byte pool (`POOL_SIZE = 64 * 4`), with an intrusive doubly linked
  list of `MemBlock` headers (`sizeof(MemBlock) = 32` on the 64-bit
  platform the sources target: `size_t` + `int` (padded) + two pointers).
* `fixed_size_allocatoron.c` — a fixed-size allocator with 8 slots of
  32 bytes over a 256-byte pool and an intrusive LIFO free list.

Blocks of the variable-size allocator are modelled as records carrying
their header address (as a byte offset from the pool base), their `size`
field and their `used` flag; the doubly linked list is modelled as a Lean
list in link order (the `prev`/`next` pointers of the C code always link
list neighbours).  Pointers handed to `vs_free`/`vs_realloc` are modelled
as byte offsets from the pool base (`Int`, since the C code forms header
pointers below the pool base); the null pointer is `Option.none`.
`size_t` arithmetic that can wrap is taken modulo `2 ^ 64`.

The C code reads `block->used` through the derived header pointer before
any bounds check.  When that pointer is not the address of a live header
the value read is unspecified; the model threads an explicit oracle `g`
for that read, and reports `FreeOutcome.undef` when the code would go on
to mutate memory through such a pointer (undefined behavior in C).
-/

namespace RonAlloc

/-- `sizeof(MemBlock)` on the 64-bit target: 8 (size_t) + 4 (int) + 4
(padding) + 8 (prev) + 8 (next). -/
def headerSize : Nat := 32

/-- `POOL_SIZE` of the variable-size allocator (`64 * 4`). -/
def poolSize : Nat := 256

/-- Modulus of `size_t` arithmetic on the 64-bit target. -/
def wordSize : Nat := 2 ^ 64

/-- `size_t` addition (wraps modulo `2 ^ 64`). -/
def wadd (a b : Nat) : Nat := (a + b) % wordSize

/-- `size_t` subtraction (wraps modulo `2 ^ 64`). -/
def wsub (a b : Nat) : Nat := (((a : Int) - (b : Int)) % (wordSize : Int)).toNat

/-- A `MemBlock` header of the variable-size allocator, together with the
byte offset of the header from the pool base.  The `prev`/`next` fields of
the C struct are represented by the position of the block in the state
list. -/
structure MemBlock where
  addr : Nat
  size : Nat
  used : Bool
deriving Repr, DecidableEq

/-- The block list of the variable-size allocator, in `next`-link order
starting from `head`. -/
abbrev VsState := List MemBlock

/-- One-past-the-end offset of a block: header plus payload. -/
def blockEnd (b : MemBlock) : Nat := b.addr + headerSize + b.size

/-- `vs_init_allocator`: the pool becomes a single free block whose
`size` field is `POOL_SIZE`. -/
def vsInitState : VsState := [⟨0, poolSize, false⟩]

/-- The loop condition of the best-fit scan in `vs_malloc`, with the
precedence of the C expression
`(!curr->used) && (!best || (curr->size < best->size) && (curr->size >= size))`. -/
def vsBetter (req : Nat) (c : MemBlock) (best : Option (Nat × MemBlock)) : Bool :=
  !c.used &&
    (match best with
     | none => true
     | some (_, b) => decide (c.size < b.size) && decide (req ≤ c.size))

/-- The scan loop of `vs_malloc`; carries the list index of the current
candidate so that the chosen block (identified by pointer in C) can be
updated in place. -/
def vsScan (req : Nat) : List MemBlock → Nat → Option (Nat × MemBlock) →
    Option (Nat × MemBlock)
  | [], _, best => best
  | c :: rest, i, best =>
      vsScan req rest (i + 1) (if vsBetter req c best then some (i, c) else best)

/-- The post-scan part of `vs_malloc` once the scan has produced the
block `b` at list index `i`: bounds check against the pool end, split
when `best->size >= size + sizeof(MemBlock)` (the split subtraction is
guarded and cannot wrap), then mark used and set `best->size = size`. -/
def vsMallocAt (s : VsState) (req i : Nat) (b : MemBlock) : VsState × Option Nat :=
  if poolSize < b.addr + headerSize + req then (s, none)
  else if req + headerSize ≤ b.size then
    (s.take i ++
       ⟨b.addr, req, true⟩ ::
       ⟨b.addr + headerSize + req, b.size - req - headerSize, false⟩ ::
       s.drop (i + 1),
     some (b.addr + headerSize))
  else
    (s.take i ++ ⟨b.addr, req, true⟩ :: s.drop (i + 1),
     some (b.addr + headerSize))

/-- `vs_malloc(size)`: best-fit scan, then `vsMallocAt` on the chosen
block; `none` when the scan finds no candidate ("Out of memory", state
untouched). -/
def vs_malloc (s : VsState) (req : Nat) : VsState × Option Nat :=
  match vsScan req s 0 none with
  | none => (s, none)
  | some (i, b) => vsMallocAt s req i b

/-- Outcome of `vs_free`: `ok` (block freed), `invalid` ("Invalid
pointer" printed, no mutation), or `undef` (the C code dereferences and
mutates through a pointer that is not the address of a live block header
— undefined behavior). -/
inductive FreeOutcome
  | ok
  | invalid
  | undef
deriving Repr, DecidableEq

/-- The low bounds check of `vs_free`: `block < head` (the `head` pointer
always holds the pool base address). -/
def vsBoundsLow (b : Int) : Bool := decide (b < 0)

/-- The high bounds check of `vs_free`:
`(char*)block > memory_pool + POOL_SIZE` (strict comparison). -/
def vsBoundsHigh (b : Int) : Bool := decide ((poolSize : Int) < b)

/-- The live block header (if any) at header offset `b`. -/
def findByAddr (s : VsState) (b : Int) : Option MemBlock :=
  s.find? (fun blk => decide ((blk.addr : Int) = b))

/-- The next-neighbour merge step of `vs_free`: the block is marked free
and, if its `next` exists and is free, absorbed
(`block->size += block->next->size + sizeof(MemBlock)`). -/
def mergeNextF (b : MemBlock) (rest : VsState) : MemBlock × VsState :=
  match rest with
  | [] => (⟨b.addr, b.size, false⟩, [])
  | n :: rest' =>
    if n.used then (⟨b.addr, b.size, false⟩, n :: rest')
    else (⟨b.addr, wadd b.size (wadd n.size headerSize), false⟩, rest')

/-- The mutation performed by `vs_free` on the validated block at header
offset `h`: mark free, merge with `next` if free, then merge into `prev`
if free (`block->prev->size += block->size + sizeof(MemBlock)`).  The
traversal carries one block of lookbehind, since the match at the list
head has no `prev`; recursion only descends past a non-matching head. -/
def vsFreeGo (h : Nat) : VsState → VsState
  | [] => []
  | [b] => if b.addr = h then [(mergeNextF b []).1] else [b]
  | b :: c :: rest' =>
    if b.addr = h then
      -- the matched block is the list head, which has no `prev`
      (mergeNextF b (c :: rest')).1 :: (mergeNextF b (c :: rest')).2
    else if c.addr = h then
      if b.used then
        b :: (mergeNextF c rest').1 :: (mergeNextF c rest').2
      else
        ⟨b.addr, wadd b.size (wadd (mergeNextF c rest').1.size headerSize), false⟩ ::
          (mergeNextF c rest').2
    else b :: vsFreeGo h (c :: rest')

/-- `vs_free(ptr)`.  The C code derives
`block = (MemBlock*)((char*)ptr - sizeof(MemBlock))` and evaluates
`!block || !block->used || block < head || (char*)block > memory_pool + POOL_SIZE`;
note that `block->used` is read before the bounds checks.  `g` is the
unspecified value of that read when `block` is not a live header (the
`!block` disjunct is never true: the pool base is a nonnull address).
When validation passes but `block` is not a live header, the C code
mutates memory through it; the model reports `undef`. -/
def vs_free (s : VsState) (p : Option Int) (g : Bool) : VsState × FreeOutcome :=
  match p with
  | none => (s, .invalid)
  | some o =>
    let b : Int := o - (headerSize : Int)
    let usedVal : Bool := (findByAddr s b).elim g (fun blk => blk.used)
    if !usedVal || vsBoundsLow b || vsBoundsHigh b then (s, .invalid)
    else (findByAddr s b).elim (s, .undef) (fun _ => (vsFreeGo b.toNat s, .ok))

/-- The block at header offset `h` together with its `next` neighbour,
as read by `vs_realloc`. -/
def findBlockNext : VsState → Int → Option (MemBlock × Option MemBlock)
  | [], _ => none
  | b :: rest, h =>
    if (b.addr : Int) = h then some (b, rest.head?) else findBlockNext rest h

/-- The shrink-in-place mutation of `vs_realloc` on the block at header
offset `h`: split off the remainder as a free block when
`block->size - new_size >= sizeof(MemBlock)` (the subtraction cannot
wrap: this path requires `new_size < block->size`), then
`block->size = new_size`. -/
def vsShrinkGo (h newSize : Nat) : VsState → VsState
  | [] => []
  | b :: rest =>
    if b.addr = h then
      if headerSize ≤ b.size - newSize then
        ⟨h, newSize, b.used⟩ ::
        ⟨h + headerSize + newSize, b.size - newSize - headerSize, false⟩ :: rest
      else ⟨h, newSize, b.used⟩ :: rest
    else b :: vsShrinkGo h newSize rest

/-- The expand-in-place mutation of `vs_realloc` on the block at header
offset `h`: absorb the free `next`
(`block->size += block->next->size + sizeof(MemBlock)`), then always
split off a remainder at `(char*)block + sizeof(MemBlock) + new_size`
whose size is `block->size - new_size - sizeof(MemBlock)` in `size_t`
arithmetic (this subtraction can wrap), then `block->size = new_size`. -/
def vsExpandGo (h newSize : Nat) : VsState → VsState
  | [] => []
  | [b] => [b]  -- a match here is unreachable: this path requires a `next` block
  | b :: n :: rest' =>
    if b.addr = h then
      ⟨h, newSize, b.used⟩ ::
      ⟨h + headerSize + newSize,
       wsub (wsub (wadd b.size (wadd n.size headerSize)) newSize) headerSize, false⟩ ::
      rest'
    else b :: vsExpandGo h newSize (n :: rest')

/-- The expand-in-place guard of `vs_realloc`:
`block->next && !block->next->used &&
 block->size + block->next->size + sizeof(MemBlock) >= new_size`
(the sum is `size_t` arithmetic). -/
def vsExpandCond (blk : MemBlock) (onext : Option MemBlock) (newSize : Nat) : Bool :=
  match onext with
  | some n => !n.used && decide (newSize ≤ wadd (wadd blk.size n.size) headerSize)
  | none => false

/-- `vs_realloc(ptr, new_size)`.  Null `ptr` degenerates to `vs_malloc`;
`new_size == 0` frees and returns null; otherwise the header is read
directly (no validation), shrinking in place when `new_size < size`,
expanding in place when `vsExpandCond` holds, and otherwise falling back
to `vs_malloc` + copy + `vs_free` (the copy is not modelled: payload
bytes are outside the model).  The outer `none` marks the undefined
behavior of dereferencing a `ptr` whose derived header is not a live
block. -/
def vs_realloc (s : VsState) (p : Option Int) (newSize : Nat) (g : Bool) :
    Option (VsState × Option Int) :=
  match p with
  | none => some ((vs_malloc s newSize).1, (vs_malloc s newSize).2.map (fun a => (a : Int)))
  | some o =>
    if newSize = 0 then some ((vs_free s p g).1, none)
    else
      match findBlockNext s (o - (headerSize : Int)) with
      | none => none
      | some (blk, onext) =>
        if newSize < blk.size then
          some (vsShrinkGo blk.addr newSize s, some o)
        else if vsExpandCond blk onext newSize then
          some (vsExpandGo blk.addr newSize s, some o)
        else
          match vs_malloc s newSize with
          | (s₁, none) => some (s₁, none)
          | (s₁, some np) => some ((vs_free s₁ (some (np : Int)) g).1, some (np : Int))

/-- Payload offsets of the used blocks, in list order. -/
def usedPayloads (s : VsState) : List Nat :=
  s.filterMap (fun b => if b.used then some (b.addr + headerSize) else none)

/-- Run a sequence of `vs_malloc` calls, all of which must succeed;
returns the final state and the granted payload offsets in call order. -/
def vsAllocAll : VsState → List Nat → Option (VsState × List Nat)
  | s, [] => some (s, [])
  | s, r :: rs =>
    (vs_malloc s r).2.bind (fun p =>
      (vsAllocAll (vs_malloc s r).1 rs).map (fun tp => (tp.1, p :: tp.2)))

/-- Run a sequence of `vs_free` calls on the given payload offsets. -/
def vsFreeAll (s : VsState) (ps : List Nat) : VsState :=
  ps.foldl (fun t p => (vs_free t (some (p : Int)) false).1) s

/-- Two blocks are address-adjacent: the second header starts at
`header_end(first) + first.size`. -/
def adjacentBlocks (a b : MemBlock) : Prop := blockEnd a = b.addr

instance : DecidableRel adjacentBlocks := fun a b =>
  inferInstanceAs (Decidable (blockEnd a = b.addr))

/-- A consecutive pair of blocks is not both free. -/
def okPair (a b : MemBlock) : Prop := a.used = true ∨ b.used = true

instance : DecidableRel okPair := fun a b =>
  inferInstanceAs (Decidable (a.used = true ∨ b.used = true))

/-- Executable pairwise-chain check (kernel-reducible counterpart of
`List.Chain'`). -/
def chainB (R : MemBlock → MemBlock → Bool) : List MemBlock → Bool
  | [] => true
  | [_] => true
  | a :: b :: t => R a b && chainB R (b :: t)

theorem chainB_iff {R : MemBlock → MemBlock → Bool} :
    ∀ s : List MemBlock, chainB R s = true ↔ List.Chain' (fun a b => R a b = true) s
  | [] => by simp [chainB]
  | [a] => by simp [chainB]
  | a :: b :: t => by
      rw [chainB, List.chain'_cons, Bool.and_eq_true, chainB_iff (b :: t)]

theorem chainB_iff_chain' {R : MemBlock → MemBlock → Prop} {B : MemBlock → MemBlock → Bool}
    (h : ∀ a b, B a b = true ↔ R a b) (s : List MemBlock) :
    chainB B s = true ↔ List.Chain' R s := by
  rw [chainB_iff s]
  exact ⟨fun hc => hc.imp (fun a b hab => (h a b).1 hab),
         fun hc => hc.imp (fun a b hab => (h a b).2 hab)⟩

/-- No two consecutive blocks of the list are both free. -/
def noAdjFree (s : VsState) : Prop := List.Chain' okPair s

theorem noAdjFreeB_iff (s : VsState) :
    chainB (fun a b => a.used || b.used) s = true ↔ noAdjFree s :=
  chainB_iff_chain' (fun a b => by simp [okPair]) s

instance (s : VsState) : Decidable (noAdjFree s) :=
  decidable_of_iff _ (noAdjFreeB_iff s)

/-- Every block's successor starts exactly at the end of the block. -/
def wfChain (s : VsState) : Prop := List.Chain' adjacentBlocks s

theorem wfChainB_iff (s : VsState) :
    chainB (fun a b => blockEnd a == b.addr) s = true ↔ wfChain s :=
  chainB_iff_chain' (fun a b => by simp [adjacentBlocks]) s

instance (s : VsState) : Decidable (wfChain s) :=
  decidable_of_iff _ (wfChainB_iff s)

/-- The de-facto shape of reachable block lists: the first header is at
the pool base, blocks are contiguous, and the last block's end is
`poolSize + headerSize` (the initial block's `size` field is the whole
`POOL_SIZE`, so the list consistently overhangs the pool by one header). -/
def vsWF (s : VsState) : Prop :=
  s.head?.map MemBlock.addr = some 0 ∧ wfChain s ∧
    s.getLast?.map blockEnd = some (poolSize + headerSize)

instance (s : VsState) : Decidable (vsWF s) :=
  inferInstanceAs (Decidable (_ ∧ _ ∧ _))

/-- The partition invariant in the words of the specification: the first
block's header starts at the arena's base address, `next` of a block
starts at `header_end(block) + block.size`, and the last block's end
equals the arena's end. -/
def specPartition (s : VsState) : Prop :=
  s.head?.map MemBlock.addr = some 0 ∧ wfChain s ∧
    s.getLast?.map blockEnd = some poolSize

instance (s : VsState) : Decidable (specPartition s) :=
  inferInstanceAs (Decidable (_ ∧ _ ∧ _))

/-! ## The fixed-size allocator (`fixed_size_allocatoron.c`) -/

/-- `BLOCK_SIZE` of the fixed-size allocator. -/
def blockSize : Nat := 32

/-- `BLOCK_COUNT` of the fixed-size allocator. -/
def blockCount : Nat := 8

/-- `POOL_SIZE` of the fixed-size allocator (`BLOCK_SIZE * BLOCK_COUNT`). -/
def fsPoolSize : Nat := blockSize * blockCount

/-- A fixed-size slot header (`FreeBlock`): the `used` flag and the
stored `next` pointer (a slot offset, or null). -/
structure FsBlock where
  used : Bool
  next : Option Nat
deriving Repr, DecidableEq

/-- State of the fixed-size allocator: the 8 slot headers in address
order (slot `i` lives at byte offset `BLOCK_SIZE * i`) and the
`free_list` head pointer (a slot offset, or null). -/
structure FsState where
  slots : List FsBlock
  freeList : Option Nat
deriving Repr, DecidableEq

/-- The slot header stored at byte offset `h` (the C code dereferences
the address directly; only slot-aligned in-pool offsets ever enter the
free list). -/
def getSlot (st : FsState) (h : Nat) : FsBlock :=
  st.slots.getD (h / blockSize) ⟨false, none⟩

/-- `fs_init_allocator`: every slot is free; slot `i < BLOCK_COUNT - 1`
points to slot `i + 1`, the last slot's `next` is null; `free_list` is
the pool base.  (The compile-time configuration check passes for
`BLOCK_SIZE = 32`, `BLOCK_COUNT = 8`.) -/
def fsInitState : FsState :=
  ⟨(List.range blockCount).map
     (fun i => ⟨false, if i + 1 < blockCount then some (blockSize * (i + 1)) else none⟩),
   some 0⟩

/-- Result of `fs_malloc`: the granted slot offset, or one of the two
failure notices. -/
inductive FsAllocResult
  | ok (addr : Nat)
  | outOfMemory
  | tooLarge
deriving Repr, DecidableEq

/-- `fs_malloc(size)`: fails on an empty free list first
(`free_list == NULL`), then on `size > BLOCK_SIZE`; otherwise pops the
list head, marks it used, clears its `next`, and returns its offset. -/
def fs_malloc (st : FsState) (size : Nat) : FsState × FsAllocResult :=
  match st.freeList with
  | none => (st, .outOfMemory)
  | some h =>
    if blockSize < size then (st, .tooLarge)
    else
      (⟨st.slots.set (h / blockSize) ⟨true, none⟩, (getSlot st h).next⟩, .ok h)

/-- Result of `fs_free`. -/
inductive FsFreeResult
  | ok
  | invalid
  | doubleFree
deriving Repr, DecidableEq

/-- `fs_free(ptr)`: rejects null, out-of-pool and non-slot-aligned
pointers before any dereference; then rejects a double free via the
`used` flag; otherwise marks the slot free and pushes it onto the free
list head.  `p` is the byte offset of the pointer from the pool base. -/
def fs_free (st : FsState) (p : Option Int) : FsState × FsFreeResult :=
  match p with
  | none => (st, .invalid)
  | some o =>
    if o < 0 ∨ (fsPoolSize : Int) ≤ o ∨ o % (blockSize : Int) ≠ 0 then (st, .invalid)
    else
      let h := o.toNat
      if (getSlot st h).used = false then (st, .doubleFree)
      else
        (⟨st.slots.set (h / blockSize) ⟨false, st.freeList⟩, some h⟩, .ok)

/-! ## Concrete reachable states used by individual claims -/

/-- Reachable state with a small leading free block:
`init; a = malloc(8); malloc(16); malloc(100); free(a)` gives
`[Free 8 @0, Used 16 @40, Used 100 @88, Free 36 @220]`. -/
def c1State : VsState :=
  (vs_free (vs_malloc (vs_malloc (vs_malloc vsInitState 8).1 16).1 100).1
    (some 32) false).1

/-- Reachable state `[Used 16 @0, Free 208 @48]` (after `malloc(16)` on a
fresh arena). -/
def growState : VsState := (vs_malloc vsInitState 16).1

/-- Reachable state `[Used 8 @0, Free 216 @40]` (after `malloc(8)` on a
fresh arena). -/
def smallAllocState : VsState := (vs_malloc vsInitState 8).1

/-- Reachable state `[Used 64 @0, Free 160 @96]` (after `malloc(64)` on a
fresh arena). -/
def shrinkState : VsState := (vs_malloc vsInitState 64).1

/-- Reachable state `[Used 224 @0, Free 0 @256]` (after `malloc(224)` on
a fresh arena; the remainder header sits exactly at the pool end). -/
def tightState : VsState := (vs_malloc vsInitState 224).1

/-- The fixed-size state after allocating all `BLOCK_COUNT` slots from a
fresh pool: every slot used, free list empty. -/
def fsExhaustedState : FsState :=
  (List.range blockCount).foldl (fun st _ => (fs_malloc st 8).1) fsInitState

/-! ## Supporting lemmas -/

theorem wadd_eq {a b : Nat} (h : a + b < wordSize) : wadd a b = a + b :=
  Nat.mod_eq_of_lt h

theorem wsub_eq {a b : Nat} (hle : b ≤ a) (ha : a < wordSize) :
    wsub a b = a - b := by
  unfold wsub
  have h1 : (a : Int) - (b : Int) = ((a - b : Nat) : Int) := by omega
  rw [h1, Int.emod_eq_of_lt (by exact_mod_cast Nat.zero_le _)
    (by exact_mod_cast Nat.lt_of_le_of_lt (Nat.sub_le a b) ha)]
  exact Int.toNat_natCast _

theorem findBlockNext_append {h : Int} :
    ∀ (L : List MemBlock) (blk : MemBlock) (R : List MemBlock),
      (∀ x ∈ L, (x.addr : Int) ≠ h) → (blk.addr : Int) = h →
      findBlockNext (L ++ blk :: R) h = some (blk, R.head?)
  | [], blk, R, _, hb => by simp [findBlockNext, hb]
  | x :: L, blk, R, hL, hb => by
      have hx : (x.addr : Int) ≠ h := hL x (by simp)
      simp only [List.cons_append, findBlockNext, if_neg hx]
      exact findBlockNext_append L blk R (fun y hy => hL y (by simp [hy])) hb

theorem vsExpandGo_cons_ne {h newSize : Nat} {x d : MemBlock} {t : VsState}
    (hx : x.addr ≠ h) :
    vsExpandGo h newSize (x :: d :: t) = x :: vsExpandGo h newSize (d :: t) := by
  rw [vsExpandGo, if_neg hx]

theorem vsExpandGo_skip {h newSize : Nat} (b c : MemBlock) (tail : VsState) :
    ∀ L : List MemBlock, (∀ x ∈ L, x.addr ≠ h) →
      vsExpandGo h newSize (L ++ b :: c :: tail) =
        L ++ vsExpandGo h newSize (b :: c :: tail) := by
  intro L
  induction L with
  | nil => intro _; rfl
  | cons x L ih =>
      intro hL
      have hx : x.addr ≠ h := hL x (by simp)
      have hrest := ih (fun z hz => hL z (by simp [hz]))
      cases L with
      | nil => exact vsExpandGo_cons_ne hx
      | cons y L' =>
          simp only [List.cons_append] at hrest ⊢
          rw [vsExpandGo_cons_ne hx, hrest]

/-- The two-block window rewrite for the adjacency chain: replacing
`b1 :: b2` by `c1 :: c2` preserves `wfChain` when the window keeps its
start address, is internally adjacent, and keeps its end. -/
theorem wfChain_two_replace {L R : List MemBlock} {b1 b2 c1 c2 : MemBlock}
    (hc : wfChain (L ++ b1 :: b2 :: R))
    (ha : c1.addr = b1.addr) (hmid : blockEnd c1 = c2.addr)
    (hend : blockEnd c2 = blockEnd b2) :
    wfChain (L ++ c1 :: c2 :: R) := by
  unfold wfChain at hc ⊢
  rw [List.chain'_append] at hc ⊢
  obtain ⟨hL, hbr, hjoin⟩ := hc
  refine ⟨hL, ?_, ?_⟩
  · rw [List.chain'_cons] at hbr ⊢
    obtain ⟨_, hbr2⟩ := hbr
    rw [List.chain'_cons'] at hbr2 ⊢
    refine ⟨hmid, ?_, hbr2.2⟩
    intro y hy
    have := hbr2.1 y hy
    unfold adjacentBlocks at this ⊢
    rw [hend]
    exact this
  · intro x hx y hy
    simp only [List.head?_cons, Option.mem_def, Option.some.injEq] at hy
    have := hjoin x hx b1 (by simp)
    unfold adjacentBlocks at this ⊢
    rw [← hy, ha]
    exact this

/-- Dropping a prefix before a two-element-headed suffix under
`getLast?`. -/
theorem getLast?_append_cc {L R : List MemBlock} {a b : MemBlock} :
    (L ++ a :: b :: R).getLast? = (a :: b :: R).getLast? :=
  List.getLast?_append_of_ne_nil L (by simp)

/-- `vsWF` is preserved by a two-block window replacement that keeps the
window's start address and end. -/
theorem vsWF_two_replace {L R : List MemBlock} {b1 b2 c1 c2 : MemBlock}
    (hwf : vsWF (L ++ b1 :: b2 :: R))
    (ha : c1.addr = b1.addr) (hmid : blockEnd c1 = c2.addr)
    (hend : blockEnd c2 = blockEnd b2) :
    vsWF (L ++ c1 :: c2 :: R) := by
  obtain ⟨hhead, hchain, hlast⟩ := hwf
  refine ⟨?_, wfChain_two_replace hchain ha hmid hend, ?_⟩
  · cases L with
    | nil =>
        simp only [List.nil_append, List.head?_cons] at hhead ⊢
        simp only [Option.map] at hhead ⊢
        rw [ha]
        exact hhead
    | cons x L' => simpa using hhead
  · rw [getLast?_append_cc] at hlast ⊢
    cases R with
    | nil =>
        simp only [List.getLast?_cons_cons] at hlast ⊢
        simp only [List.getLast?_singleton, Option.map] at hlast ⊢
        rw [hend]
        exact hlast
    | cons y R' =>
        simp only [List.getLast?_cons_cons] at hlast ⊢
        exact hlast

theorem find?_first {pred : MemBlock → Bool} :
    ∀ (L : List MemBlock) {b : MemBlock} (R : List MemBlock),
      (∀ x ∈ L, pred x = false) → pred b = true →
      (L ++ b :: R).find? pred = some b
  | [], b, R, _, hb => by simp [List.find?, hb]
  | x :: L, b, R, hL, hb => by
      have hx := hL x (by simp)
      simp only [List.cons_append, List.find?, hx]
      exact find?_first L R (fun y hy => hL y (by simp [hy])) hb

theorem find?_decomp {pred : MemBlock → Bool} :
    ∀ {s : List MemBlock} {b : MemBlock}, s.find? pred = some b →
      ∃ L R, s = L ++ b :: R ∧ ∀ x ∈ L, pred x = false
  | [], b, h => by simp [List.find?] at h
  | c :: t, b, h => by
      by_cases hp : pred c = true
      · rw [List.find?_cons_of_pos _ hp] at h
        cases h
        exact ⟨[], t, rfl, by simp⟩
      · rw [List.find?_cons_of_neg _ (by simpa using hp)] at h
        obtain ⟨L, R, hs, hL⟩ := find?_decomp h
        refine ⟨c :: L, R, by rw [hs]; rfl, ?_⟩
        intro x hx
        rcases List.mem_cons.1 hx with rfl | hx'
        · simpa using hp
        · exact hL x hx'

theorem wfChain_blockEnd_le {E : Nat} {s : List MemBlock} :
    wfChain s → s.getLast?.map blockEnd = some E → ∀ b ∈ s, blockEnd b ≤ E := by
  induction s with
  | nil => intro _ _ b hb; exact absurd hb (List.not_mem_nil b)
  | cons a t ih =>
      intro hch hlast b hb
      cases t with
      | nil =>
          simp only [List.getLast?_singleton, Option.map] at hlast
          rcases List.mem_cons.1 hb with rfl | hb'
          · injection hlast with h1
            omega
          · exact absurd hb' (List.not_mem_nil b)
      | cons c t' =>
          have hch' : wfChain (c :: t') := (List.chain'_cons.1 hch).2
          have hadj : adjacentBlocks a c := (List.chain'_cons.1 hch).1
          have hlast' : (c :: t').getLast?.map blockEnd = some E := by
            simpa [List.getLast?_cons_cons] using hlast
          rcases List.mem_cons.1 hb with rfl | hb'
          · have hc : blockEnd c ≤ E := ih hch' hlast' c (by simp)
            unfold adjacentBlocks at hadj
            unfold blockEnd at hadj hc ⊢
            omega
          · exact ih hch' hlast' b hb'

theorem vsWF_blockEnd_le {s : List MemBlock} (hwf : vsWF s) :
    ∀ b ∈ s, blockEnd b ≤ poolSize + headerSize :=
  wfChain_blockEnd_le hwf.2.1 hwf.2.2

/-- Replacing a nonempty consecutive window by a single block with the
same start address and the same end preserves `vsWF`. -/
theorem vsWF_window_one (c : MemBlock) {L W R : List MemBlock}
    (hwf : vsWF (L ++ W ++ R)) (hWne : W ≠ [])
    (haddr : W.head?.map MemBlock.addr = some c.addr)
    (hend : W.getLast?.map blockEnd = some (blockEnd c)) :
    vsWF (L ++ c :: R) := by
  obtain ⟨hhead, hchain, hlast⟩ := hwf
  obtain ⟨w, W', rfl⟩ : ∃ w W', W = w :: W' := by
    cases W with
    | nil => exact absurd rfl hWne
    | cons w W' => exact ⟨w, W', rfl⟩
  simp only [List.head?_cons, Option.map] at haddr
  have haddr' : w.addr = c.addr := by injection haddr
  obtain ⟨gl, hgl⟩ : ∃ gl, (w :: W').getLast? = some gl := by
    cases hW : (w :: W').getLast? with
    | none => simp at hW
    | some gl => exact ⟨gl, rfl⟩
  rw [hgl] at hend
  simp only [Option.map] at hend
  have hend' : blockEnd gl = blockEnd c := by injection hend
  rw [List.append_assoc] at hchain hlast hhead
  unfold wfChain at hchain
  rw [List.chain'_append] at hchain
  obtain ⟨hcL, hcWR, hjoin1⟩ := hchain
  rw [List.chain'_append] at hcWR
  obtain ⟨hcW, hcR, hjoin2⟩ := hcWR
  refine ⟨?_, ?_, ?_⟩
  · cases L with
    | nil =>
        simp only [List.nil_append, List.head?_cons, Option.map] at hhead ⊢
        rw [← haddr']
        exact hhead
    | cons x L' => simpa using hhead
  · unfold wfChain
    rw [List.chain'_append]
    refine ⟨hcL, ?_, ?_⟩
    · rw [List.chain'_cons']
      refine ⟨?_, hcR⟩
      intro y hy
      have := hjoin2 gl (by rw [hgl]; rfl) y hy
      unfold adjacentBlocks at this ⊢
      rw [← hend']
      exact this
    · intro x hx y hy
      simp only [List.head?_cons, Option.mem_def, Option.some.injEq] at hy
      have := hjoin1 x hx w (by simp)
      unfold adjacentBlocks at this ⊢
      rw [← hy, ← haddr']
      exact this
  · cases R with
    | nil =>
        rw [List.append_nil] at hlast
        rw [List.getLast?_append_of_ne_nil L (by simp : (w :: W') ≠ [])] at hlast
        rw [hgl] at hlast
        simp only [Option.map] at hlast
        rw [List.getLast?_append_of_ne_nil L (by simp : [c] ≠ [])]
        simp only [List.getLast?_singleton, Option.map]
        rw [← hend']
        exact hlast
    | cons y R' =>
        rw [List.getLast?_append_of_ne_nil L (by simp : (w :: W') ++ y :: R' ≠ []),
          List.getLast?_append_of_ne_nil (w :: W') (by simp : (y :: R') ≠ [])] at hlast
        rw [List.getLast?_append_of_ne_nil L (by simp : (c :: y :: R') ≠ []),
          List.getLast?_cons_cons]
        exact hlast

/-- Replacing a consecutive window by any single block preserves the
no-two-adjacent-free-blocks property, provided the blocks at the seam
(the last of the prefix and the first of the suffix) are used. -/
theorem noAdjFree_window_one {L W R : List MemBlock} (c : MemBlock)
    (hnaf : noAdjFree (L ++ W ++ R))
    (hLlast : ∀ x ∈ L.getLast?, x.used = true)
    (hRhead : ∀ y ∈ R.head?, y.used = true) :
    noAdjFree (L ++ c :: R) := by
  rw [List.append_assoc] at hnaf
  unfold noAdjFree at hnaf ⊢
  rw [List.chain'_append] at hnaf ⊢
  obtain ⟨hL, hWR, _⟩ := hnaf
  rw [List.chain'_append] at hWR
  refine ⟨hL, ?_, ?_⟩
  · rw [List.chain'_cons']
    exact ⟨fun y hy => Or.inr (hRhead y hy), hWR.2.1⟩
  · intro x hx y _
    exact Or.inl (hLlast x hx)

theorem usedPayloads_append (a b : List MemBlock) :
    usedPayloads (a ++ b) = usedPayloads a ++ usedPayloads b := by
  unfold usedPayloads
  rw [List.filterMap_append]

theorem usedPayloads_cons_free {c : MemBlock} {t : List MemBlock}
    (hc : c.used = false) : usedPayloads (c :: t) = usedPayloads t := by
  unfold usedPayloads
  rw [List.filterMap_cons_none]
  rw [hc]
  rfl

theorem usedPayloads_cons_used {c : MemBlock} {t : List MemBlock}
    (hc : c.used = true) :
    usedPayloads (c :: t) = (c.addr + headerSize) :: usedPayloads t := by
  unfold usedPayloads
  rw [List.filterMap_cons_some]
  rw [hc]
  rfl

theorem mergeNextF_nil {b : MemBlock} :
    mergeNextF b [] = (⟨b.addr, b.size, false⟩, []) := rfl

theorem mergeNextF_used {b n : MemBlock} {R : List MemBlock} (hn : n.used = true) :
    mergeNextF b (n :: R) = (⟨b.addr, b.size, false⟩, n :: R) := by
  rw [mergeNextF, if_pos hn]

theorem mergeNextF_free {b n : MemBlock} {R : List MemBlock} (hn : n.used = false) :
    mergeNextF b (n :: R) =
      (⟨b.addr, wadd b.size (wadd n.size headerSize), false⟩, R) := by
  rw [mergeNextF, if_neg (by simp [hn])]

theorem vsFreeGo_head {h : Nat} {b : MemBlock} {R : List MemBlock} (hb : b.addr = h) :
    vsFreeGo h (b :: R) = (mergeNextF b R).1 :: (mergeNextF b R).2 := by
  cases R with
  | nil => rw [vsFreeGo, if_pos hb]; rfl
  | cons c rest => rw [vsFreeGo, if_pos hb]

theorem vsFreeGo_prev {h : Nat} {p b : MemBlock} {R : List MemBlock}
    (hp : p.addr ≠ h) (hb : b.addr = h) :
    vsFreeGo h (p :: b :: R) =
      if p.used then p :: (mergeNextF b R).1 :: (mergeNextF b R).2
      else ⟨p.addr, wadd p.size (wadd (mergeNextF b R).1.size headerSize), false⟩ ::
             (mergeNextF b R).2 := by
  rw [vsFreeGo, if_neg hp, if_pos hb]

theorem vsFreeGo_cons_ne {h : Nat} {x d : MemBlock} {t : List MemBlock}
    (hx : x.addr ≠ h) (hd : d.addr ≠ h) :
    vsFreeGo h (x :: d :: t) = x :: vsFreeGo h (d :: t) := by
  rw [vsFreeGo, if_neg hx, if_neg hd]

theorem vsFreeGo_skip {h : Nat} (p b : MemBlock) (R : List MemBlock)
    (hp : p.addr ≠ h) :
    ∀ L : List MemBlock, (∀ x ∈ L, x.addr ≠ h) →
      vsFreeGo h (L ++ p :: b :: R) = L ++ vsFreeGo h (p :: b :: R) := by
  intro L
  induction L with
  | nil => intro _; rfl
  | cons x L ih =>
      intro hL
      have hx : x.addr ≠ h := hL x (by simp)
      have hrest := ih (fun z hz => hL z (by simp [hz]))
      cases L with
      | nil => exact vsFreeGo_cons_ne hx hp
      | cons y L' =>
          have hy : y.addr ≠ h := hL y (by simp)
          simp only [List.cons_append] at hrest ⊢
          rw [vsFreeGo_cons_ne hx hy, hrest]

theorem naf_seam_last {T : List MemBlock} {p : MemBlock} {B : List MemBlock}
    (hnaf : noAdjFree (T ++ p :: B)) (hp : p.used = false) :
    ∀ x ∈ T.getLast?, x.used = true := by
  intro x hx
  unfold noAdjFree at hnaf
  rw [List.chain'_append] at hnaf
  rcases hnaf.2.2 x hx p (by simp) with h1 | h1
  · exact h1
  · rw [hp] at h1
    exact absurd h1 (by simp)

theorem naf_pair_after {A : List MemBlock} {u v : MemBlock} {B : List MemBlock}
    (hnaf : noAdjFree (A ++ u :: v :: B)) (hu : u.used = false) : v.used = true := by
  unfold noAdjFree at hnaf
  rw [List.chain'_append] at hnaf
  rcases (List.chain'_cons.1 hnaf.2.1).1 with h1 | h1
  · rw [hu] at h1
    exact absurd h1 (by simp)
  · exact h1

/-- Freeing a block (with the source's next-then-previous coalescing)
preserves the no-two-consecutive-free-blocks property. -/
theorem vsFreeGo_noAdjFree {R : List MemBlock} {blk : MemBlock} {L : List MemBlock}
    (hL : ∀ x ∈ L, x.addr ≠ blk.addr)
    (hnaf : noAdjFree (L ++ blk :: R)) :
    noAdjFree (vsFreeGo blk.addr (L ++ blk :: R)) := by
  rcases List.eq_nil_or_concat L with rfl | ⟨T, p, rfl⟩
  · -- the freed block is the list head: no previous merge
    simp only [List.nil_append] at hnaf ⊢
    rw [vsFreeGo_head rfl]
    rcases R with _ | ⟨n, R'⟩
    · rw [mergeNextF_nil]
      exact List.chain'_singleton _
    · by_cases hn : n.used = true
      · rw [mergeNextF_used hn]
        have hnaf' : noAdjFree (([] : List MemBlock) ++ [blk] ++ n :: R') := by
          simpa using hnaf
        have := noAdjFree_window_one ⟨blk.addr, blk.size, false⟩ hnaf'
          (by simp) (fun y hy => by
            simp only [List.head?_cons, Option.mem_def, Option.some.injEq] at hy
            rw [← hy]
            exact hn)
        simpa using this
      · rw [mergeNextF_free (by simpa using hn)]
        have hnaf' : noAdjFree (([] : List MemBlock) ++ [blk, n] ++ R') := by
          simpa using hnaf
        have hm2 : ∀ y ∈ R'.head?, y.used = true := by
          intro y hy
          cases R' with
          | nil => simp at hy
          | cons z R'' =>
              simp only [List.head?_cons, Option.mem_def, Option.some.injEq] at hy
              rw [← hy]
              have hnaf'' : noAdjFree (([blk] : List MemBlock) ++ n :: z :: R'') := by
                simpa using hnaf
              exact naf_pair_after hnaf'' (by simpa using hn)
        have := noAdjFree_window_one
          ⟨blk.addr, wadd blk.size (wadd n.size headerSize), false⟩ hnaf'
          (by simp) hm2
        simpa using this
  · -- the freed block has a previous block p (last of L)
    simp only [List.concat_eq_append] at hL hnaf ⊢
    have hp : p.addr ≠ blk.addr := hL p (by simp)
    have hT : ∀ x ∈ T, x.addr ≠ blk.addr := fun x hx => hL x (by simp [hx])
    have hshape : (T ++ [p]) ++ blk :: R = T ++ p :: blk :: R := by simp
    rw [hshape] at hnaf ⊢
    rw [vsFreeGo_skip p blk R hp T hT, vsFreeGo_prev hp rfl]
    by_cases hpu : p.used = true
    · rw [if_pos hpu]
      -- result: T ++ p :: m1 :: m2, seam blocks p (used) and head of m2
      rcases R with _ | ⟨n, R'⟩
      · rw [mergeNextF_nil]
        have hnaf' : noAdjFree ((T ++ [p]) ++ [blk] ++ ([] : List MemBlock)) := by
          simpa using hnaf
        have := noAdjFree_window_one ⟨blk.addr, blk.size, false⟩ hnaf'
          (by intro x hx
              simp only [List.getLast?_append_of_ne_nil T
                (by simp : ([p] : List MemBlock) ≠ []),
                List.getLast?_singleton, Option.mem_def, Option.some.injEq] at hx
              rw [← hx]
              exact hpu)
          (by simp)
        simpa using this
      · by_cases hn : n.used = true
        · rw [mergeNextF_used hn]
          have hnaf' : noAdjFree ((T ++ [p]) ++ [blk] ++ n :: R') := by
            simpa using hnaf
          have := noAdjFree_window_one ⟨blk.addr, blk.size, false⟩ hnaf'
            (by intro x hx
                simp only [List.getLast?_append_of_ne_nil T
                  (by simp : ([p] : List MemBlock) ≠ []),
                  List.getLast?_singleton, Option.mem_def, Option.some.injEq] at hx
                rw [← hx]
                exact hpu)
            (fun y hy => by
              simp only [List.head?_cons, Option.mem_def, Option.some.injEq] at hy
              rw [← hy]
              exact hn)
          simpa using this
        · rw [mergeNextF_free (by simpa using hn)]
          have hnaf' : noAdjFree ((T ++ [p]) ++ [blk, n] ++ R') := by
            simpa using hnaf
          have hm2 : ∀ y ∈ R'.head?, y.used = true := by
            intro y hy
            cases R' with
            | nil => simp at hy
            | cons z R'' =>
                simp only [List.head?_cons, Option.mem_def, Option.some.injEq] at hy
                rw [← hy]
                have hnaf'' : noAdjFree ((T ++ p :: [blk]) ++ n :: z :: R'') := by
                  simpa using hnaf
                exact naf_pair_after hnaf'' (by simpa using hn)
          have := noAdjFree_window_one
            ⟨blk.addr, wadd blk.size (wadd n.size headerSize), false⟩ hnaf'
            (by intro x hx
                simp only [List.getLast?_append_of_ne_nil T
                  (by simp : ([p] : List MemBlock) ≠ []),
                  List.getLast?_singleton, Option.mem_def, Option.some.injEq] at hx
                rw [← hx]
                exact hpu)
            hm2
          simpa using this
    · -- p is free: the freed block is absorbed into p
      rw [if_neg hpu]
      have hpu' : p.used = false := by simpa using hpu
      have hTlast : ∀ x ∈ T.getLast?, x.used = true :=
        naf_seam_last (by simpa using hnaf) hpu'
      rcases R with _ | ⟨n, R'⟩
      · rw [mergeNextF_nil]
        have hnaf' : noAdjFree (T ++ [p, blk] ++ ([] : List MemBlock)) := by
          simpa using hnaf
        have := noAdjFree_window_one
          ⟨p.addr, wadd p.size (wadd (⟨blk.addr, blk.size, false⟩ : MemBlock).size
            headerSize), false⟩ hnaf' hTlast (by simp)
        simpa using this
      · by_cases hn : n.used = true
        · rw [mergeNextF_used hn]
          have hnaf' : noAdjFree (T ++ [p, blk] ++ n :: R') := by
            simpa using hnaf
          have := noAdjFree_window_one
            ⟨p.addr, wadd p.size (wadd (⟨blk.addr, blk.size, false⟩ : MemBlock).size
              headerSize), false⟩ hnaf' hTlast
            (fun y hy => by
              simp only [List.head?_cons, Option.mem_def, Option.some.injEq] at hy
              rw [← hy]
              exact hn)
          simpa using this
        · rw [mergeNextF_free (by simpa using hn)]
          have hnaf' : noAdjFree (T ++ [p, blk, n] ++ R') := by
            simpa using hnaf
          have hm2 : ∀ y ∈ R'.head?, y.used = true := by
            intro y hy
            cases R' with
            | nil => simp at hy
            | cons z R'' =>
                simp only [List.head?_cons, Option.mem_def, Option.some.injEq] at hy
                rw [← hy]
                have hnaf'' : noAdjFree ((T ++ p :: [blk]) ++ n :: z :: R'') := by
                  simpa using hnaf
                exact naf_pair_after hnaf'' (by simpa using hn)
          have := noAdjFree_window_one
            ⟨p.addr, wadd p.size (wadd (⟨blk.addr,
              wadd blk.size (wadd n.size headerSize), false⟩ : MemBlock).size
              headerSize), false⟩ hnaf' hTlast hm2
          simpa using this

theorem vsBetter_used {req : Nat} {c : MemBlock} {acc : Option (Nat × MemBlock)}
    (h : vsBetter req c acc = true) : c.used = false := by
  unfold vsBetter at h
  simp only [Bool.and_eq_true] at h
  simpa using h.1

/-- Any block returned by the best-fit scan is a free member of the
scanned list, at the reported index. -/
theorem vsScan_sound {req : Nat} :
    ∀ (l : List MemBlock) (i : Nat) (acc : Option (Nat × MemBlock)) {j : Nat}
      {b : MemBlock},
      vsScan req l i acc = some (j, b) →
      acc = some (j, b) ∨ ∃ m, l[m]? = some b ∧ j = i + m ∧ b.used = false
  | [], _, _, _, _, h => Or.inl h
  | c :: rest, i, acc, j, b, h => by
      rw [vsScan] at h
      rcases vsScan_sound rest (i + 1) _ h with hacc | ⟨m, hm, hj, hu⟩
      · by_cases hbet : vsBetter req c acc = true
        · rw [if_pos hbet] at hacc
          simp only [Option.some.injEq, Prod.mk.injEq] at hacc
          right
          refine ⟨0, by simp [hacc.2], by omega, ?_⟩
          rw [← hacc.2]
          exact vsBetter_used hbet
        · rw [if_neg hbet] at hacc
          exact Or.inl hacc
      · right
        exact ⟨m + 1, by simpa using hm, by omega, hu⟩

theorem noAdjFree_mark_used {T D : List MemBlock} {b u : MemBlock}
    (h : noAdjFree (T ++ b :: D)) (hu : u.used = true) :
    noAdjFree (T ++ u :: D) := by
  unfold noAdjFree at h ⊢
  rw [List.chain'_append] at h ⊢
  obtain ⟨h1, h2, _⟩ := h
  refine ⟨h1, ?_, ?_⟩
  · rw [List.chain'_cons'] at h2 ⊢
    exact ⟨fun y _ => Or.inl hu, h2.2⟩
  · intro x _ y hy
    simp only [List.head?_cons, Option.mem_def, Option.some.injEq] at hy
    exact Or.inr (by rw [← hy]; exact hu)

theorem noAdjFree_split {T D : List MemBlock} {b u f : MemBlock}
    (h : noAdjFree (T ++ b :: D)) (hb : b.used = false) (hu : u.used = true) :
    noAdjFree (T ++ u :: f :: D) := by
  unfold noAdjFree at h ⊢
  rw [List.chain'_append] at h ⊢
  obtain ⟨h1, h2, _⟩ := h
  refine ⟨h1, ?_, ?_⟩
  · rw [List.chain'_cons]
    refine ⟨Or.inl hu, ?_⟩
    rw [List.chain'_cons'] at h2 ⊢
    refine ⟨?_, h2.2⟩
    intro y hy
    rcases h2.1 y hy with h4 | h4
    · rw [hb] at h4
      exact absurd h4 (by simp)
    · exact Or.inr h4
  · intro x _ y hy
    simp only [List.head?_cons, Option.mem_def, Option.some.injEq] at hy
    exact Or.inr (by rw [← hy]; exact hu)

/-- `vs_malloc` preserves the no-two-consecutive-free-blocks property in
any state. -/
theorem vs_malloc_noAdjFree (s : VsState) (req : Nat) (h : noAdjFree s) :
    noAdjFree (vs_malloc s req).1 := by
  cases hscan : vsScan req s 0 none with
  | none =>
      have he : vs_malloc s req = (s, none) := by
        unfold vs_malloc
        rw [hscan]
      rw [he]
      exact h
  | some ib =>
      obtain ⟨i, b⟩ := ib
      have he : vs_malloc s req = vsMallocAt s req i b := by
        unfold vs_malloc
        rw [hscan]
      rw [he]
      rcases vsScan_sound s 0 none hscan with hacc | ⟨m, hm, hj, hu⟩
      · exact absurd hacc (by simp)
      · have him : i = m := by omega
        subst him
        have hlen : i < s.length := by
          by_contra hc
          rw [List.getElem?_eq_none (by omega)] at hm
          exact absurd hm (by simp)
        have hsb : s[i] = b := by
          have h2 := List.getElem?_eq_getElem hlen
          rw [h2] at hm
          injection hm
        have hdecomp : s = s.take i ++ b :: s.drop (i + 1) := by
          conv_lhs => rw [← List.take_append_drop i s]
          rw [List.drop_eq_getElem_cons hlen, hsb]
        unfold vsMallocAt
        by_cases h1 : poolSize < b.addr + headerSize + req
        · rw [if_pos h1]
          exact h
        · rw [if_neg h1]
          by_cases h2 : req + headerSize ≤ b.size
          · rw [if_pos h2]
            rw [hdecomp] at h
            exact noAdjFree_split h hu rfl
          · rw [if_neg h2]
            rw [hdecomp] at h
            exact noAdjFree_mark_used h rfl

/-- Unfolding `vs_free` at a non-null pointer. -/
theorem vs_free_some (s : VsState) (o : Int) (g : Bool) :
    vs_free s (some o) g =
      (if !((findByAddr s (o - (headerSize : Int))).elim g (fun blk => blk.used)) ||
          vsBoundsLow (o - (headerSize : Int)) ||
          vsBoundsHigh (o - (headerSize : Int)) then (s, FreeOutcome.invalid)
       else (findByAddr s (o - (headerSize : Int))).elim (s, FreeOutcome.undef)
         (fun _ => (vsFreeGo (o - (headerSize : Int)).toNat s, FreeOutcome.ok))) := rfl

/-- The state of `vs_free` is unchanged unless the valid-header path is
taken. -/
theorem vs_free_state_or (s : VsState) (p : Option Int) (g : Bool) :
    (vs_free s p g).1 = s ∨
    ∃ o blk, p = some o ∧ findByAddr s (o - (headerSize : Int)) = some blk ∧
      (vs_free s p g).1 = vsFreeGo (o - (headerSize : Int)).toNat s := by
  cases p with
  | none => exact Or.inl rfl
  | some o =>
      rw [vs_free_some]
      by_cases hc : (!((findByAddr s (o - (headerSize : Int))).elim g
          (fun blk => blk.used)) || vsBoundsLow (o - (headerSize : Int)) ||
          vsBoundsHigh (o - (headerSize : Int))) = true
      · rw [if_pos hc]
        exact Or.inl rfl
      · rw [if_neg hc]
        cases hfind : findByAddr s (o - (headerSize : Int)) with
        | none => exact Or.inl rfl
        | some blk => exact Or.inr ⟨o, blk, rfl, hfind, rfl⟩

/-- `findByAddr` finds a block whose address is the search key. -/
theorem findByAddr_some {s : VsState} {b : Int} {blk : MemBlock}
    (h : findByAddr s b = some blk) : (blk.addr : Int) = b := by
  have := List.find?_some h
  simpa using this

theorem poolSize_eq : poolSize = 256 := rfl

theorem headerSize_eq : headerSize = 32 := rfl

theorem wordSize_eq : wordSize = 18446744073709551616 := by norm_num [wordSize]

/-- The multiset of used payload offsets after freeing the block at
`blk.addr`: the freed block and any absorbed free neighbours drop out,
every other block is untouched. -/
theorem vsFreeGo_usedPayloads {R : List MemBlock} {blk : MemBlock} {L : List MemBlock}
    (hL : ∀ x ∈ L, x.addr ≠ blk.addr) :
    usedPayloads (vsFreeGo blk.addr (L ++ blk :: R)) =
      usedPayloads L ++ usedPayloads R := by
  rcases List.eq_nil_or_concat L with rfl | ⟨T, p, rfl⟩
  · simp only [List.nil_append]
    rw [vsFreeGo_head rfl]
    rcases R with _ | ⟨n, R'⟩
    · rw [mergeNextF_nil]
      simp [usedPayloads]
    · by_cases hn : n.used = true
      · rw [mergeNextF_used hn]
        rw [usedPayloads_cons_free rfl]
        simp [usedPayloads]
      · have hn' : n.used = false := by simpa using hn
        rw [mergeNextF_free hn']
        rw [usedPayloads_cons_free rfl, usedPayloads_cons_free hn']
        simp [usedPayloads]
  · simp only [List.concat_eq_append] at hL ⊢
    have hp : p.addr ≠ blk.addr := hL p (by simp)
    have hT : ∀ x ∈ T, x.addr ≠ blk.addr := fun x hx => hL x (by simp [hx])
    have hshape : (T ++ [p]) ++ blk :: R = T ++ p :: blk :: R := by simp
    rw [hshape, vsFreeGo_skip p blk R hp T hT, vsFreeGo_prev hp rfl]
    have hupl : usedPayloads (T ++ [p]) = usedPayloads T ++ usedPayloads [p] :=
      usedPayloads_append T [p]
    by_cases hpu : p.used = true
    · rw [if_pos hpu]
      rcases R with _ | ⟨n, R'⟩
      · rw [mergeNextF_nil]
        rw [usedPayloads_append, usedPayloads_cons_used hpu,
          usedPayloads_cons_free rfl, hupl, usedPayloads_cons_used hpu]
        simp [usedPayloads]
      · by_cases hn : n.used = true
        · rw [mergeNextF_used hn]
          rw [usedPayloads_append, usedPayloads_cons_used hpu,
            usedPayloads_cons_free rfl, hupl, usedPayloads_cons_used hpu]
          simp [usedPayloads]
        · have hn' : n.used = false := by simpa using hn
          rw [mergeNextF_free hn']
          rw [usedPayloads_append, usedPayloads_cons_used hpu,
            usedPayloads_cons_free rfl, hupl, usedPayloads_cons_used hpu,
            usedPayloads_cons_free hn']
          simp [usedPayloads]
    · have hpu' : p.used = false := by simpa using hpu
      rw [if_neg hpu]
      rcases R with _ | ⟨n, R'⟩
      · rw [mergeNextF_nil]
        rw [usedPayloads_append, usedPayloads_cons_free rfl, hupl,
          usedPayloads_cons_free hpu']
        simp [usedPayloads]
      · by_cases hn : n.used = true
        · rw [mergeNextF_used hn]
          rw [usedPayloads_append, usedPayloads_cons_free rfl, hupl,
            usedPayloads_cons_free hpu']
          simp [usedPayloads]
        · have hn' : n.used = false := by simpa using hn
          rw [mergeNextF_free hn']
          rw [usedPayloads_append, usedPayloads_cons_free rfl, hupl,
            usedPayloads_cons_free hpu', usedPayloads_cons_free hn']
          simp [usedPayloads]

theorem mem_usedPayloads {s : VsState} {p : Nat} (h : p ∈ usedPayloads s) :
    ∃ blk, blk ∈ s ∧ blk.used = true ∧ blk.addr + headerSize = p := by
  unfold usedPayloads at h
  rw [List.mem_filterMap] at h
  obtain ⟨blk, hmem, hf⟩ := h
  by_cases hu : blk.used = true
  · rw [if_pos hu] at hf
    injection hf with hf'
    exact ⟨blk, hmem, hu, hf'⟩
  · rw [if_neg hu] at hf
    cases hf

theorem all_free_of_usedPayloads_nil {s : VsState} (h : usedPayloads s = []) :
    ∀ b ∈ s, b.used = false := by
  intro b hb
  unfold usedPayloads at h
  rw [List.filterMap_eq_nil_iff] at h
  have hfb := h b hb
  by_cases hu : b.used = true
  · rw [if_pos hu] at hfb
    cases hfb
  · simpa using hu

/-- A well-formed all-free block list with no two adjacent free blocks is
exactly the freshly initialized list. -/
theorem wf_naf_allfree_singleton {s : VsState} (hwf : vsWF s) (hnaf : noAdjFree s)
    (hfree : ∀ b ∈ s, b.used = false) : s = vsInitState := by
  cases s with
  | nil =>
      obtain ⟨hh, _, _⟩ := hwf
      simp at hh
  | cons a t =>
      cases t with
      | nil =>
          obtain ⟨hh, _, hl⟩ := hwf
          simp only [List.head?_cons, Option.map] at hh
          have ha : a.addr = 0 := by injection hh
          simp only [List.getLast?_singleton, Option.map] at hl
          have he : blockEnd a = poolSize + headerSize := by injection hl
          unfold blockEnd at he
          have hsz : a.size = poolSize := by omega
          have hu : a.used = false := hfree a (by simp)
          unfold vsInitState
          congr 1
          cases a
          simp only at ha hsz hu
          rw [ha, hsz, hu]
      | cons b t' =>
          have h1 := (List.chain'_cons.1 hnaf).1
          rcases h1 with h1 | h1
          · rw [hfree a (by simp)] at h1
            exact absurd h1 (by simp)
          · rw [hfree b (by simp)] at h1
            exact absurd h1 (by simp)

theorem wf_pairwise_lt {s : VsState} (hwf : vsWF s) :
    s.Pairwise (fun a b : MemBlock => a.addr < b.addr) := by
  haveI : IsTrans MemBlock (fun a b : MemBlock => a.addr < b.addr) :=
    ⟨fun _ _ _ h1 h2 => Nat.lt_trans h1 h2⟩
  apply List.chain'_iff_pairwise.1
  apply List.Chain'.imp ?_ hwf.2.1
  intro a b hab
  unfold adjacentBlocks at hab
  unfold blockEnd at hab
  rw [headerSize_eq] at hab
  omega

theorem chain'_okPair_all_used :
    ∀ {us : List MemBlock}, (∀ b ∈ us, b.used = true) → List.Chain' okPair us
  | [], _ => List.chain'_nil
  | [a], _ => List.chain'_singleton a
  | a :: b :: t, h => by
      rw [List.chain'_cons]
      exact ⟨Or.inl (h a (by simp)),
        chain'_okPair_all_used (fun x hx => h x (by simp [hx]))⟩

theorem noAdjFree_of_shape {us : List MemBlock} {f : MemBlock}
    (hus : ∀ b ∈ us, b.used = true) : noAdjFree (us ++ [f]) := by
  unfold noAdjFree
  rw [List.chain'_append]
  refine ⟨chain'_okPair_all_used hus, List.chain'_singleton f, ?_⟩
  intro x hx _ _
  cases hgl : us.getLast? with
  | none => rw [hgl] at hx; cases hx
  | some y =>
      rw [hgl] at hx
      simp only [Option.mem_def, Option.some.injEq] at hx
      left
      rw [← hx]
      exact hus y (List.mem_of_mem_getLast? (by rw [hgl]; rfl))

theorem wfChain_adj_mid {A B : List MemBlock} {u v : MemBlock}
    (hch : wfChain (A ++ u :: v :: B)) : blockEnd u = v.addr := by
  unfold wfChain at hch
  rw [List.chain'_append] at hch
  exact (List.chain'_cons.1 hch.2.1).1

/-- Freeing a block (with the source's next-then-previous coalescing)
preserves well-formedness of the block list. -/
theorem vsFreeGo_vsWF {R : List MemBlock} {blk : MemBlock} {L : List MemBlock}
    (hL : ∀ x ∈ L, x.addr ≠ blk.addr)
    (hwf : vsWF (L ++ blk :: R)) :
    vsWF (vsFreeGo blk.addr (L ++ blk :: R)) := by
  have hbnd := vsWF_blockEnd_le hwf
  have hbblk := hbnd blk (by simp)
  have hbsize : blk.size ≤ 288 := by
    unfold blockEnd at hbblk
    rw [headerSize_eq, poolSize_eq] at hbblk
    omega
  rcases List.eq_nil_or_concat L with rfl | ⟨T, p, rfl⟩
  · simp only [List.nil_append] at hwf hbnd ⊢
    rw [vsFreeGo_head rfl]
    rcases R with _ | ⟨n, R'⟩
    · rw [mergeNextF_nil]
      have hwf' : vsWF (([] : List MemBlock) ++ [blk] ++ ([] : List MemBlock)) := by
        simpa using hwf
      have := vsWF_window_one ⟨blk.addr, blk.size, false⟩ hwf' (by simp) (by simp)
        (by simp [blockEnd])
      simpa using this
    · by_cases hn : n.used = true
      · rw [mergeNextF_used hn]
        have hwf' : vsWF (([] : List MemBlock) ++ [blk] ++ n :: R') := by
          simpa using hwf
        have := vsWF_window_one ⟨blk.addr, blk.size, false⟩ hwf' (by simp) (by simp)
          (by simp [blockEnd])
        simpa using this
      · have hn' : n.used = false := by simpa using hn
        rw [mergeNextF_free hn']
        have hbn := hbnd n (by simp)
        have hnsize : n.size ≤ 288 := by
          unfold blockEnd at hbn
          rw [headerSize_eq, poolSize_eq] at hbn
          omega
        have hadj : blockEnd blk = n.addr := (List.chain'_cons.1 hwf.2.1).1
        have e0 : wadd n.size headerSize = n.size + headerSize :=
          wadd_eq (by rw [headerSize_eq, wordSize_eq]; omega)
        have hsz : wadd blk.size (wadd n.size headerSize) =
            blk.size + (n.size + headerSize) := by
          rw [e0, wadd_eq (by rw [headerSize_eq, wordSize_eq]; omega)]
        have hwf' : vsWF (([] : List MemBlock) ++ [blk, n] ++ R') := by
          simpa using hwf
        have hend : ([blk, n] : List MemBlock).getLast?.map blockEnd =
            some (blockEnd (⟨blk.addr, wadd blk.size (wadd n.size headerSize),
              false⟩ : MemBlock)) := by
          simp only [List.getLast?_cons_cons, List.getLast?_singleton, Option.map]
          congr 1
          unfold blockEnd at hadj ⊢
          rw [hsz]
          dsimp only
          omega
        have := vsWF_window_one ⟨blk.addr, wadd blk.size (wadd n.size headerSize),
          false⟩ hwf' (by simp) (by simp) hend
        simpa using this
  · simp only [List.concat_eq_append] at hL hwf hbnd ⊢
    have hp : p.addr ≠ blk.addr := hL p (by simp)
    have hT : ∀ x ∈ T, x.addr ≠ blk.addr := fun x hx => hL x (by simp [hx])
    have hshape : (T ++ [p]) ++ blk :: R = T ++ p :: blk :: R := by simp
    rw [hshape] at hwf hbnd ⊢
    rw [vsFreeGo_skip p blk R hp T hT, vsFreeGo_prev hp rfl]
    have hbp := hbnd p (by simp)
    have hpsize : p.size ≤ 288 := by
      unfold blockEnd at hbp
      rw [headerSize_eq, poolSize_eq] at hbp
      omega
    have hadjp : blockEnd p = blk.addr := wfChain_adj_mid hwf.2.1
    by_cases hpu : p.used = true
    · rw [if_pos hpu]
      rcases R with _ | ⟨n, R'⟩
      · rw [mergeNextF_nil]
        have hwf' : vsWF ((T ++ [p]) ++ [blk] ++ ([] : List MemBlock)) := by
          simpa using hwf
        have := vsWF_window_one ⟨blk.addr, blk.size, false⟩ hwf' (by simp) (by simp)
          (by simp [blockEnd])
        simpa using this
      · by_cases hn : n.used = true
        · rw [mergeNextF_used hn]
          have hwf' : vsWF ((T ++ [p]) ++ [blk] ++ n :: R') := by
            simpa using hwf
          have := vsWF_window_one ⟨blk.addr, blk.size, false⟩ hwf' (by simp) (by simp)
            (by simp [blockEnd])
          simpa using this
        · have hn' : n.used = false := by simpa using hn
          rw [mergeNextF_free hn']
          have hbn := hbnd n (by simp)
          have hnsize : n.size ≤ 288 := by
            unfold blockEnd at hbn
            rw [headerSize_eq, poolSize_eq] at hbn
            omega
          have hadj : blockEnd blk = n.addr := by
            have hch : wfChain ((T ++ [p]) ++ blk :: n :: R') := by
              simpa using hwf.2.1
            exact wfChain_adj_mid hch
          have e0 : wadd n.size headerSize = n.size + headerSize :=
            wadd_eq (by rw [headerSize_eq, wordSize_eq]; omega)
          have hsz : wadd blk.size (wadd n.size headerSize) =
              blk.size + (n.size + headerSize) := by
            rw [e0, wadd_eq (by rw [headerSize_eq, wordSize_eq]; omega)]
          have hwf' : vsWF ((T ++ [p]) ++ [blk, n] ++ R') := by
            simpa using hwf
          have hend : ([blk, n] : List MemBlock).getLast?.map blockEnd =
              some (blockEnd (⟨blk.addr, wadd blk.size (wadd n.size headerSize),
                false⟩ : MemBlock)) := by
            simp only [List.getLast?_cons_cons, List.getLast?_singleton, Option.map]
            congr 1
            unfold blockEnd at hadj ⊢
            rw [hsz]
            dsimp only
            omega
          have := vsWF_window_one ⟨blk.addr, wadd blk.size (wadd n.size headerSize),
            false⟩ hwf' (by simp) (by simp) hend
          simpa using this
    · rw [if_neg hpu]
      rcases R with _ | ⟨n, R'⟩
      · rw [mergeNextF_nil]
        have e0 : wadd blk.size headerSize = blk.size + headerSize :=
          wadd_eq (by rw [headerSize_eq, wordSize_eq]; omega)
        have hsz : wadd p.size (wadd blk.size headerSize) =
            p.size + (blk.size + headerSize) := by
          rw [e0, wadd_eq (by rw [headerSize_eq, wordSize_eq]; omega)]
        have hwf' : vsWF (T ++ [p, blk] ++ ([] : List MemBlock)) := by
          simpa using hwf
        have hend : ([p, blk] : List MemBlock).getLast?.map blockEnd =
            some (blockEnd (⟨p.addr,
              wadd p.size (wadd (⟨blk.addr, blk.size, false⟩ : MemBlock).size
                headerSize), false⟩ : MemBlock)) := by
          simp only [List.getLast?_cons_cons, List.getLast?_singleton, Option.map]
          congr 1
          unfold blockEnd at hadjp ⊢
          dsimp only
          rw [hsz]
          omega
        have := vsWF_window_one ⟨p.addr, wadd p.size
          (wadd (⟨blk.addr, blk.size, false⟩ : MemBlock).size headerSize), false⟩
          hwf' (by simp) (by simp) hend
        simpa using this
      · by_cases hn : n.used = true
        · rw [mergeNextF_used hn]
          have e0 : wadd blk.size headerSize = blk.size + headerSize :=
            wadd_eq (by rw [headerSize_eq, wordSize_eq]; omega)
          have hsz : wadd p.size (wadd blk.size headerSize) =
              p.size + (blk.size + headerSize) := by
            rw [e0, wadd_eq (by rw [headerSize_eq, wordSize_eq]; omega)]
          have hwf' : vsWF (T ++ [p, blk] ++ n :: R') := by
            simpa using hwf
          have hend : ([p, blk] : List MemBlock).getLast?.map blockEnd =
              some (blockEnd (⟨p.addr,
                wadd p.size (wadd (⟨blk.addr, blk.size, false⟩ : MemBlock).size
                  headerSize), false⟩ : MemBlock)) := by
            simp only [List.getLast?_cons_cons, List.getLast?_singleton, Option.map]
            congr 1
            unfold blockEnd at hadjp ⊢
            dsimp only
            rw [hsz]
            omega
          have := vsWF_window_one ⟨p.addr, wadd p.size
            (wadd (⟨blk.addr, blk.size, false⟩ : MemBlock).size headerSize), false⟩
            hwf' (by simp) (by simp) hend
          simpa using this
        · have hn' : n.used = false := by simpa using hn
          rw [mergeNextF_free hn']
          have hbn := hbnd n (by simp)
          have hnsize : n.size ≤ 288 := by
            unfold blockEnd at hbn
            rw [headerSize_eq, poolSize_eq] at hbn
            omega
          have hadj : blockEnd blk = n.addr := by
            have hch : wfChain ((T ++ [p]) ++ blk :: n :: R') := by
              simpa using hwf.2.1
            exact wfChain_adj_mid hch
          have e0 : wadd n.size headerSize = n.size + headerSize :=
            wadd_eq (by rw [headerSize_eq, wordSize_eq]; omega)
          have hsz : wadd blk.size (wadd n.size headerSize) =
              blk.size + (n.size + headerSize) := by
            rw [e0, wadd_eq (by rw [headerSize_eq, wordSize_eq]; omega)]
          have e1 : wadd (wadd blk.size (wadd n.size headerSize)) headerSize =
              blk.size + (n.size + headerSize) + headerSize := by
            rw [hsz]
            exact wadd_eq (by rw [headerSize_eq, wordSize_eq]; omega)
          have hsz2 : wadd p.size (wadd (wadd blk.size (wadd n.size headerSize))
              headerSize) = p.size + (blk.size + (n.size + headerSize) + headerSize) := by
            rw [e1]
            exact wadd_eq (by rw [headerSize_eq, wordSize_eq]; omega)
          have hwf' : vsWF (T ++ [p, blk, n] ++ R') := by
            simpa using hwf
          have hend : ([p, blk, n] : List MemBlock).getLast?.map blockEnd =
              some (blockEnd (⟨p.addr,
                wadd p.size (wadd (⟨blk.addr,
                  wadd blk.size (wadd n.size headerSize), false⟩ : MemBlock).size
                  headerSize), false⟩ : MemBlock)) := by
            simp only [List.getLast?_cons_cons, List.getLast?_singleton, Option.map]
            congr 1
            unfold blockEnd at hadjp hadj ⊢
            dsimp only
            rw [hsz2]
            omega
          have := vsWF_window_one ⟨p.addr, wadd p.size
            (wadd (⟨blk.addr, wadd blk.size (wadd n.size headerSize),
              false⟩ : MemBlock).size headerSize), false⟩
            hwf' (by simp) (by simp) hend
          simpa using this

/-- On a list of used blocks followed by a single trailing free block, the
best-fit scan returns the trailing free block. -/
theorem vsScan_all_used (req : Nat) :
    ∀ (us : List MemBlock) (i : Nat) (f : MemBlock),
      (∀ b ∈ us, b.used = true) → f.used = false →
      vsScan req (us ++ [f]) i none = some (i + us.length, f)
  | [], i, f, _, hf => by
      have hb : vsBetter req f none = true := by
        unfold vsBetter
        rw [hf]
        rfl
      simp only [List.nil_append, vsScan, if_pos hb]
      simp [vsScan]
  | c :: us, i, f, hus, hf => by
      have hc : vsBetter req c none = false := by
        unfold vsBetter
        rw [hus c (by simp)]
        rfl
      have hrec := vsScan_all_used req us (i + 1) f (fun b hb => hus b (by simp [hb])) hf
      rw [List.cons_append, vsScan, if_neg (by rw [hc]; simp), hrec]
      have harith : i + 1 + us.length = i + (c :: us).length := by
        simp only [List.length_cons]
        omega
      rw [harith]

/-- Splitting one block into two (keeping the start address and the
total extent) preserves `vsWF`. -/
theorem vsWF_one_to_two {L R : List MemBlock} {x c1 c2 : MemBlock}
    (hwf : vsWF (L ++ x :: R))
    (ha : c1.addr = x.addr) (hmid : blockEnd c1 = c2.addr)
    (hend : blockEnd c2 = blockEnd x) :
    vsWF (L ++ c1 :: c2 :: R) := by
  obtain ⟨hhead, hchain, hlast⟩ := hwf
  refine ⟨?_, ?_, ?_⟩
  · cases L with
    | nil =>
        simp only [List.nil_append, List.head?_cons, Option.map] at hhead ⊢
        rw [ha]
        exact hhead
    | cons y L' => simpa using hhead
  · unfold wfChain at hchain ⊢
    rw [List.chain'_append] at hchain ⊢
    obtain ⟨h1, h2, h3⟩ := hchain
    refine ⟨h1, ?_, ?_⟩
    · rw [List.chain'_cons]
      refine ⟨hmid, ?_⟩
      rw [List.chain'_cons'] at h2 ⊢
      refine ⟨?_, h2.2⟩
      intro y hy
      have := h2.1 y hy
      unfold adjacentBlocks at this ⊢
      rw [hend]
      exact this
    · intro a hx y hy
      simp only [List.head?_cons, Option.mem_def, Option.some.injEq] at hy
      have := h3 a hx x (by simp)
      unfold adjacentBlocks at this ⊢
      rw [← hy, ha]
      exact this
  · cases R with
    | nil =>
        rw [List.getLast?_append_of_ne_nil L
          (by simp : ([x] : List MemBlock) ≠ [])] at hlast
        rw [getLast?_append_cc]
        simp only [List.getLast?_singleton, List.getLast?_cons_cons,
          Option.map] at hlast ⊢
        rw [hend]
        exact hlast
    | cons y R' =>
        rw [List.getLast?_append_of_ne_nil L
          (by simp : (x :: y :: R') ≠ []), List.getLast?_cons_cons] at hlast
        rw [getLast?_append_cc, List.getLast?_cons_cons, List.getLast?_cons_cons]
        exact hlast

/-- A successful `vs_malloc` on a used-prefix/free-tail list always
splits the trailing free block. -/
theorem vs_malloc_shape {us : List MemBlock} {f : MemBlock} {req : Nat}
    (hus : ∀ b ∈ us, b.used = true) (hf : f.used = false)
    (hwf : vsWF (us ++ [f]))
    (hok : f.addr + headerSize + req ≤ poolSize) :
    vs_malloc (us ++ [f]) req =
      (us ++ [⟨f.addr, req, true⟩,
              ⟨f.addr + headerSize + req, f.size - req - headerSize, false⟩],
       some (f.addr + headerSize)) := by
  have hscan := vsScan_all_used req us 0 f hus hf
  have he : vs_malloc (us ++ [f]) req =
      vsMallocAt (us ++ [f]) req (0 + us.length) f := by
    unfold vs_malloc
    rw [hscan]
  have hlastf : blockEnd f = poolSize + headerSize := by
    have h2 := hwf.2.2
    rw [List.getLast?_append_of_ne_nil us
      (by simp : ([f] : List MemBlock) ≠ [])] at h2
    simp only [List.getLast?_singleton, Option.map] at h2
    injection h2
  have hsize : req + headerSize ≤ f.size := by
    unfold blockEnd at hlastf
    omega
  rw [he]
  unfold vsMallocAt
  rw [if_neg (by omega), if_pos hsize, Nat.zero_add, List.take_left]
  have hdrop : (us ++ [f]).drop (us.length + 1) = [] := by
    have hlen : (us ++ [f]).length = us.length + 1 := by simp
    rw [← hlen, List.drop_length]
  rw [hdrop]

theorem vs_malloc_shape_fail {us : List MemBlock} {f : MemBlock} {req : Nat}
    (hus : ∀ b ∈ us, b.used = true) (hf : f.used = false)
    (hnok : poolSize < f.addr + headerSize + req) :
    vs_malloc (us ++ [f]) req = (us ++ [f], none) := by
  have hscan := vsScan_all_used req us 0 f hus hf
  have he : vs_malloc (us ++ [f]) req =
      vsMallocAt (us ++ [f]) req (0 + us.length) f := by
    unfold vs_malloc
    rw [hscan]
  rw [he]
  unfold vsMallocAt
  rw [if_pos hnok]

/-- Any run of successful allocations from a used-prefix/free-tail state
keeps that shape, keeps well-formedness, and appends exactly the granted
payload offsets to the used payload list. -/
theorem vsAllocAll_shape :
    ∀ (reqs : List Nat) (us : List MemBlock) (f : MemBlock) (s' : VsState)
      (grants : List Nat),
      (∀ b ∈ us, b.used = true) → f.used = false → vsWF (us ++ [f]) →
      vsAllocAll (us ++ [f]) reqs = some (s', grants) →
      ∃ us' f', s' = us' ++ [f'] ∧ (∀ b ∈ us', b.used = true) ∧
        f'.used = false ∧ vsWF s' ∧
        usedPayloads s' = usedPayloads (us ++ [f]) ++ grants
  | [], us, f, s', grants, hus, hf, hwf, h => by
      rw [vsAllocAll] at h
      simp only [Option.some.injEq, Prod.mk.injEq] at h
      obtain ⟨h1, h2⟩ := h
      subst h1
      subst h2
      exact ⟨us, f, rfl, hus, hf, hwf, by simp⟩
  | r :: reqs, us, f, s', grants, hus, hf, hwf, h => by
      rw [vsAllocAll] at h
      by_cases hok : f.addr + headerSize + r ≤ poolSize
      · have hm := vs_malloc_shape hus hf hwf hok
        rw [hm] at h
        cases hrec : vsAllocAll (us ++ [⟨f.addr, r, true⟩,
            ⟨f.addr + headerSize + r, f.size - r - headerSize, false⟩]) reqs with
        | none =>
            rw [hrec] at h
            simp at h
        | some tp =>
            obtain ⟨t, ps⟩ := tp
            rw [hrec] at h
            have h' : some ((t : VsState), (f.addr + headerSize) :: ps) =
                some (s', grants) := h
            simp only [Option.some.injEq, Prod.mk.injEq] at h'
            obtain ⟨h1, h2⟩ := h'
            subst h1
            subst h2
            have hlastf : blockEnd f = poolSize + headerSize := by
              have h2 := hwf.2.2
              rw [List.getLast?_append_of_ne_nil us
                (by simp : ([f] : List MemBlock) ≠ [])] at h2
              simp only [List.getLast?_singleton, Option.map] at h2
              injection h2
            have hsz : r + headerSize ≤ f.size := by
              unfold blockEnd at hlastf
              omega
            have hmid2 : blockEnd (⟨f.addr, r, true⟩ : MemBlock) =
                (⟨f.addr + headerSize + r, f.size - r - headerSize,
                  false⟩ : MemBlock).addr := rfl
            have hend2 : blockEnd (⟨f.addr + headerSize + r,
                f.size - r - headerSize, false⟩ : MemBlock) = blockEnd f := by
              unfold blockEnd
              dsimp only
              omega
            have hwf2 : vsWF (us ++ (⟨f.addr, r, true⟩ : MemBlock) ::
                (⟨f.addr + headerSize + r, f.size - r - headerSize,
                  false⟩ : MemBlock) :: []) :=
              vsWF_one_to_two hwf rfl hmid2 hend2
            have hshape2 : us ++ (⟨f.addr, r, true⟩ : MemBlock) ::
                (⟨f.addr + headerSize + r, f.size - r - headerSize,
                  false⟩ : MemBlock) :: [] =
                (us ++ [⟨f.addr, r, true⟩]) ++
                  [⟨f.addr + headerSize + r, f.size - r - headerSize, false⟩] := by
              simp
            have hrec' : vsAllocAll ((us ++ [⟨f.addr, r, true⟩]) ++
                [⟨f.addr + headerSize + r, f.size - r - headerSize, false⟩]) reqs =
                some (t, ps) := by
              rw [← hshape2]
              simpa using hrec
            obtain ⟨us', f', hs', hus', hf', hwf', hup'⟩ :=
              vsAllocAll_shape reqs (us ++ [⟨f.addr, r, true⟩])
                ⟨f.addr + headerSize + r, f.size - r - headerSize, false⟩ t ps
                (by intro b hb
                    rcases List.mem_append.1 hb with hb' | hb'
                    · exact hus b hb'
                    · simp at hb'
                      rw [hb']) rfl
                (by rw [← hshape2]; exact hwf2) hrec'
            refine ⟨us', f', hs', hus', hf', hwf', ?_⟩
            rw [hup']
            rw [usedPayloads_append, usedPayloads_append, usedPayloads_append,
              usedPayloads_cons_free hf, usedPayloads_cons_used rfl]
            simp [usedPayloads]
      · have hfail := vs_malloc_shape_fail hus hf
          (show poolSize < f.addr + headerSize + r by omega)
        rw [hfail] at h
        simp at h

/-- `vs_free` at the payload of a used block whose header address is
unique in the list takes the valid path. -/
theorem vs_free_valid_eq {L R : List MemBlock} {blk : MemBlock} (g : Bool)
    (hL : ∀ x ∈ L, x.addr ≠ blk.addr) (hbu : blk.used = true)
    (haddrle : blk.addr ≤ poolSize) :
    vs_free (L ++ blk :: R) (some ((blk.addr : Int) + (headerSize : Int))) g =
      (vsFreeGo blk.addr (L ++ blk :: R), FreeOutcome.ok) := by
  have harg : (blk.addr : Int) + (headerSize : Int) - (headerSize : Int) =
      (blk.addr : Int) := by ring
  have hfind : findByAddr (L ++ blk :: R) ((blk.addr : Int)) = some blk := by
    unfold findByAddr
    apply find?_first L R
    · intro x hx
      simp only [decide_eq_false_iff_not]
      intro heq
      exact hL x hx (by exact_mod_cast heq)
    · simp
  have h1 : vsBoundsLow (blk.addr : Int) = false := by
    simp [vsBoundsLow]
  have h2 : vsBoundsHigh (blk.addr : Int) = false := by
    unfold vsBoundsHigh
    simp only [decide_eq_false_iff_not]
    exact_mod_cast Nat.not_lt.2 haddrle
  rw [vs_free_some, harg, hfind]
  simp [hbu, h1, h2, Int.toNat_natCast]

/-- Freeing, in any order, all used payloads of a well-formed list with
no two adjacent free blocks collapses it back to the single initial free
block. -/
theorem vsFreeAll_reclaim :
    ∀ (order : List Nat) (s : VsState), vsWF s → noAdjFree s →
      List.Perm (usedPayloads s) order → vsFreeAll s order = vsInitState := by
  intro order
  induction order with
  | nil =>
      intro s hwf hnaf hperm
      have hnil : usedPayloads s = [] := hperm.eq_nil
      have hfree := all_free_of_usedPayloads_nil hnil
      exact wf_naf_allfree_singleton hwf hnaf hfree
  | cons p order ih =>
      intro s hwf hnaf hperm
      have hmem : p ∈ usedPayloads s := hperm.mem_iff.2 (by simp)
      obtain ⟨blk, hblkmem, hbu, hpa⟩ := mem_usedPayloads hmem
      obtain ⟨L, R, rfl⟩ := List.append_of_mem hblkmem
      have hpw := wf_pairwise_lt hwf
      have hL : ∀ x ∈ L, x.addr ≠ blk.addr := by
        intro x hx
        have := (List.pairwise_append.1 hpw).2.2 x hx blk (by simp)
        omega
      have hble := vsWF_blockEnd_le hwf blk (by simp)
      have haddrle : blk.addr ≤ poolSize := by
        unfold blockEnd at hble
        omega
      have hstep : vsFreeAll (L ++ blk :: R) (p :: order) =
          vsFreeAll (vs_free (L ++ blk :: R) (some (p : Int)) false).1 order := rfl
      have hcast : (p : Int) = (blk.addr : Int) + (headerSize : Int) := by
        rw [← hpa]
        push_cast
        ring
      rw [hstep, hcast, vs_free_valid_eq false hL hbu haddrle]
      apply ih
      · exact vsFreeGo_vsWF hL hwf
      · exact vsFreeGo_noAdjFree hL hnaf
      · rw [vsFreeGo_usedPayloads hL]
        have hup : usedPayloads (L ++ blk :: R) =
            usedPayloads L ++ p :: usedPayloads R := by
          rw [usedPayloads_append, usedPayloads_cons_used hbu, hpa]
        rw [hup] at hperm
        have h1 : List.Perm (usedPayloads L ++ p :: usedPayloads R)
            (p :: (usedPayloads L ++ usedPayloads R)) := List.perm_middle
        exact (h1.symm.trans hperm).cons_inv

/-! ## Claim theorems -/

/-- C1 (code bug): in the reachable state
`[Free 8 @0, Used 16 @40, Used 100 @88, Free 36 @220]` no free block has
size at least 40, yet `vs_malloc(40)` succeeds and grants the size-8 free
block at offset 0 (truncating its `size` field to 40): the best-fit scan
of the source takes the first free block as `best` regardless of its
size (operator precedence in
`(!curr->used) && (!best || (curr->size < best->size) && (curr->size >= size))`),
contradicting both the specified best-fit selection and the specified
failure condition, as well as the code's own comment "The block must be
free, large enough". -/
theorem vs_malloc_grants_undersized_block :
    c1State =
      [⟨0, 8, false⟩, ⟨40, 16, true⟩, ⟨88, 100, true⟩, ⟨220, 36, false⟩] ∧
    c1State.filter (fun b => !b.used && decide (40 ≤ b.size)) = [] ∧
    vs_malloc c1State 40 =
      ([⟨0, 40, true⟩, ⟨40, 16, true⟩, ⟨88, 100, true⟩, ⟨220, 36, false⟩],
       some 32) := by
  decide

/-- C2 (code bug): already the freshly initialized block list violates
the specified partition invariant: `vs_init_allocator` sets the single
block's `size` to the whole `POOL_SIZE`, so the block's end
(`header_end + size = 288`) overhangs the arena end (`256`) by one
header. -/
theorem vs_init_breaks_spec_partition : ¬ specPartition vsInitState := by
  decide

/-- C9: the bounds validation of `vs_free` compares the derived header
address with `memory_pool + POOL_SIZE` using strict `>`: the header
offset exactly `poolSize` is not rejected by the bounds check — only
strictly larger ones are — and a free whose derived header is exactly at
the arena end is not reported as an invalid pointer (on the fresh arena
it proceeds to dereference a non-header address, which is undefined
behavior, rather than being rejected). -/
theorem vs_free_bounds_check_strict :
    vsBoundsHigh (poolSize : Int) = false ∧
    (∀ b : Int, (poolSize : Int) < b → vsBoundsHigh b = true) ∧
    (vs_free vsInitState (some ((poolSize : Int) + (headerSize : Int))) true).2 ≠
      FreeOutcome.invalid := by
  refine ⟨by decide, fun b hb => ?_, by decide⟩
  unfold vsBoundsHigh
  exact decide_eq_true hb

/-- Witness for `vs_free_bounds_check_strict` at the concrete header
offset 300. -/
theorem vs_free_bounds_check_strict_witness : vsBoundsHigh 300 = true :=
  vs_free_bounds_check_strict.2.1 300 (by decide)

/-- C10 (amended part): on a freshly initialized arena, `vs_malloc(0)`
succeeds, returns payload offset `headerSize` (= arena base + header),
and splits the arena into a used block of size 0 followed by a free
remainder. -/
theorem vs_malloc_zero_on_fresh_arena :
    vs_malloc vsInitState 0 =
      ([⟨0, 0, true⟩, ⟨headerSize, 224, false⟩], some headerSize) := by
  decide

/-- C10 (counterexample): a zero-size request CAN be reported as
out-of-memory while a free block exists: in the reachable state
`[Used 224 @0, Free 0 @256]` the only free block's header sits at the
arena end, so `(char*)best + sizeof(MemBlock) + 0` exceeds the pool end
and `vs_malloc(0)` returns null. -/
theorem vs_malloc_zero_oom_with_free_block :
    tightState = [⟨0, 224, true⟩, ⟨256, 0, false⟩] ∧
    tightState.filter (fun b => !b.used) = [⟨256, 0, false⟩] ∧
    vs_malloc tightState 0 = (tightState, none) := by
  decide

/-- C6 (counterexample): with an empty free list and a request larger
than `BLOCK_SIZE` (33 > 32), `fs_malloc` reports out-of-memory, not
allocation-too-large: the source checks `free_list == NULL` before
`size > BLOCK_SIZE`, so "fails with `AllocationTooLarge` iff
`size > BlockSize`" is false, and the claimed error priority is
inverted. -/
theorem fs_malloc_error_priority :
    fsExhaustedState.freeList = none ∧
    fs_malloc fsExhaustedState 33 = (fsExhaustedState, FsAllocResult.outOfMemory) ∧
    FsAllocResult.outOfMemory ≠ FsAllocResult.tooLarge := by
  decide

/-- C7 (counterexample): a `vs_realloc` shrink leaves two address-adjacent
free blocks: in the reachable state `[Used 64 @0, Free 160 @96]`,
`realloc(ptr, 16)` splits off `Free 16 @48` without coalescing it with
the following `Free 160 @96`. -/
theorem vs_realloc_shrink_adjacent_free :
    vs_realloc shrinkState (some 32) 16 false =
      some ([⟨0, 16, true⟩, ⟨48, 16, false⟩, ⟨96, 160, false⟩], some 32) ∧
    ¬ noAdjFree [⟨0, 16, true⟩, ⟨48, 16, false⟩, ⟨96, 160, false⟩] ∧
    adjacentBlocks ⟨48, 16, false⟩ ⟨96, 160, false⟩ := by
  decide

/-- C3: for any sequence of `vs_malloc` calls that all succeed on a
freshly initialized arena, releasing all the granted payloads in any
order restores the block list to exactly the single free block of the
initial state (one node, `size = PoolSize`, spanning the whole
directory). -/
theorem vs_full_reclamation (reqs : List Nat) (s : VsState) (grants : List Nat)
    (halloc : vsAllocAll vsInitState reqs = some (s, grants))
    (order : List Nat) (hperm : List.Perm order grants) :
    vsFreeAll s order = vsInitState := by
  have h0 : vsInitState =
      ([] : List MemBlock) ++ [(⟨0, poolSize, false⟩ : MemBlock)] := rfl
  rw [h0] at halloc
  obtain ⟨us, f, rfl, hus, hf, hwf, hup⟩ :=
    vsAllocAll_shape reqs [] ⟨0, poolSize, false⟩ s grants (by simp) rfl
      (by decide) halloc
  have hnaf : noAdjFree (us ++ [f]) := noAdjFree_of_shape hus
  have hupg : usedPayloads (us ++ [f]) = grants := by
    rw [hup]
    simp [usedPayloads]
  exact vsFreeAll_reclaim order (us ++ [f]) hwf hnaf
    (by rw [hupg]; exact hperm.symm)

/-- Witness for `vs_full_reclamation`: allocate 8 then 16 bytes from a
fresh arena and release the two payloads in reverse order; the list
collapses back to the initial single free block. -/
theorem vs_full_reclamation_witness :
    vsFreeAll [⟨0, 8, true⟩, ⟨40, 16, true⟩, ⟨88, 168, false⟩] [72, 32] =
      vsInitState :=
  vs_full_reclamation [8, 16]
    [⟨0, 8, true⟩, ⟨40, 16, true⟩, ⟨88, 168, false⟩] [32, 72] (by decide)
    [72, 32] (List.Perm.swap 32 72 [])

/-- C7 (amended): no two consecutive blocks of the list are both free
after `init`, after any `allocate`, and after any `release` that does
not dereference a bogus header (in well-formed states consecutive in
list order coincides with address-adjacent).  `resize` is excluded: its
shrink path violates the property — see the counterexample. -/
theorem vs_no_adjacent_free_preserved :
    noAdjFree vsInitState ∧
    (∀ (s : VsState) (req : Nat), noAdjFree s → noAdjFree (vs_malloc s req).1) ∧
    (∀ (s : VsState) (p : Option Int) (g : Bool), noAdjFree s →
       (vs_free s p g).2 ≠ FreeOutcome.undef → noAdjFree (vs_free s p g).1) := by
  refine ⟨by decide, vs_malloc_noAdjFree, ?_⟩
  intro s p g h _
  rcases vs_free_state_or s p g with h1 | ⟨o, blk, _, hfind, h1⟩
  · rw [h1]
    exact h
  · rw [h1]
    have haddr : (blk.addr : Int) = o - headerSize := findByAddr_some hfind
    have htn : (o - (headerSize : Int)).toNat = blk.addr := by
      rw [← haddr]
      exact Int.toNat_natCast _
    rw [htn]
    obtain ⟨L, R, hs, hL⟩ := find?_decomp hfind
    rw [hs] at h ⊢
    apply vsFreeGo_noAdjFree ?_ h
    intro x hx
    have hxa : (x.addr : Int) ≠ o - headerSize := by simpa using hL x hx
    intro heq
    exact hxa ((congrArg (fun n : Nat => (n : Int)) heq).trans haddr)

/-- Witness for `vs_no_adjacent_free_preserved`: freeing the used block
of the reachable state `[Used 8 @0, Free 216 @40]` keeps the property. -/
theorem vs_no_adjacent_free_preserved_witness :
    noAdjFree (vs_free smallAllocState (some 32) false).1 :=
  vs_no_adjacent_free_preserved.2.2 smallAllocState (some 32) false (by decide)
    (by decide)

/-- C5 (counterexample, variable-size allocator): the misaligned in-pool
pointer 33 (derived header offset 1, inside the pool, not a block
header) is not reported as an invalid pointer when the unspecified
memory read at that offset yields a nonzero `used` word: `vs_free` has
no alignment check, passes validation, and proceeds to mutate through
the bogus header (undefined behavior) instead of rejecting. -/
theorem vs_free_misaligned_not_rejected :
    (vs_free smallAllocState (some 33) true).2 = FreeOutcome.undef ∧
    FreeOutcome.undef ≠ FreeOutcome.invalid := by
  decide

/-- C4 (counterexample): growing `[Used 16 @0, Free 208 @48]` to 230
satisfies the claim's hypotheses (`next` free,
`16 + 208 + 32 = 256 ≥ 230 ≥ 16`), and the code expands in place — but
the remainder size `block->size - new_size - sizeof(MemBlock)`
underflows in `size_t` arithmetic (16 + 208 − 230 < 0), producing a
free block of size `2^64 - 6` whose end is nowhere near the arena: the
resulting list is not well-formed. -/
theorem vs_realloc_grow_underflow :
    vs_realloc growState (some 32) 230 false =
      some ([⟨0, 230, true⟩, ⟨262, 2 ^ 64 - 6, false⟩], some 32) ∧
    ¬ vsWF [⟨0, 230, true⟩, ⟨262, 2 ^ 64 - 6, false⟩] := by
  decide

/-- C6 (amended): `fs_malloc` fails with out-of-memory iff the free list
is empty; it fails with allocation-too-large iff the free list is
nonempty and `size > BLOCK_SIZE` (so when both conditions hold,
out-of-memory wins — the empty-list check comes first in the source);
every failure leaves the state unchanged; and a successful call pops the
list head, marks it used, clears its `next`, and returns its offset. -/
theorem fs_malloc_cases (st : FsState) (size : Nat) :
    ((fs_malloc st size).2 = FsAllocResult.outOfMemory ↔ st.freeList = none) ∧
    ((fs_malloc st size).2 = FsAllocResult.tooLarge ↔
       st.freeList ≠ none ∧ blockSize < size) ∧
    (((fs_malloc st size).2 = FsAllocResult.outOfMemory ∨
       (fs_malloc st size).2 = FsAllocResult.tooLarge) → (fs_malloc st size).1 = st) ∧
    (∀ h, st.freeList = some h → size ≤ blockSize →
       fs_malloc st size =
         (⟨st.slots.set (h / blockSize) ⟨true, none⟩, (getSlot st h).next⟩,
          FsAllocResult.ok h)) := by
  obtain ⟨slots, fl⟩ := st
  cases fl with
  | none =>
      refine ⟨by simp [fs_malloc], by simp [fs_malloc], fun _ => rfl, ?_⟩
      intro h hh
      cases hh
  | some h0 =>
      by_cases hs : blockSize < size
      · refine ⟨by simp [fs_malloc, hs], by simp [fs_malloc, hs], fun _ => by
          simp [fs_malloc, hs], ?_⟩
        intro h hh hsz
        omega
      · refine ⟨by simp [fs_malloc, hs], by simp [fs_malloc, hs], ?_, ?_⟩
        · intro hor
          rcases hor with h1 | h1 <;> simp [fs_malloc, hs] at h1
        · intro h hh hsz
          cases hh
          simp [fs_malloc, hs]

/-- Witness for `fs_malloc_cases`: first allocation from a fresh
fixed-size pool grants slot 0. -/
theorem fs_malloc_cases_witness :
    fs_malloc fsInitState 8 =
      (⟨fsInitState.slots.set 0 ⟨true, none⟩, (getSlot fsInitState 0).next⟩,
       FsAllocResult.ok 0) :=
  (fs_malloc_cases fsInitState 8).2.2.2 0 rfl (by decide)

/-- C5 (amended): a null handle, or one whose derived header lies below
the pool base or strictly past the arena end, is rejected by the
variable-size `vs_free` with the state unchanged (for either value of
the unspecified memory read); and the fixed-size `fs_free` rejects null,
out-of-pool and misaligned handles with the state unchanged.  (The
variable-size `vs_free` has no alignment check: see the counterexample
for in-pool misaligned handles.) -/
theorem release_invalid_pointer_rejection :
    (∀ (s : VsState) (g : Bool), vs_free s none g = (s, FreeOutcome.invalid)) ∧
    (∀ (s : VsState) (o : Int) (g : Bool), o < (headerSize : Int) →
       vs_free s (some o) g = (s, FreeOutcome.invalid)) ∧
    (∀ (s : VsState) (o : Int) (g : Bool),
       (poolSize : Int) + (headerSize : Int) < o →
       vs_free s (some o) g = (s, FreeOutcome.invalid)) ∧
    (∀ st : FsState, fs_free st none = (st, FsFreeResult.invalid)) ∧
    (∀ (st : FsState) (o : Int),
       (o < 0 ∨ (fsPoolSize : Int) ≤ o ∨ o % (blockSize : Int) ≠ 0) →
       fs_free st (some o) = (st, FsFreeResult.invalid)) := by
  refine ⟨fun s g => rfl, ?_, ?_, fun st => rfl, ?_⟩
  · intro s o g ho
    have hb : o - (headerSize : Int) < 0 := by omega
    simp [vs_free, vsBoundsLow, vsBoundsHigh, hb]
  · intro s o g ho
    have hb : (poolSize : Int) < o - (headerSize : Int) := by omega
    simp [vs_free, vsBoundsLow, vsBoundsHigh, hb]
  · intro st o ho
    simp only [fs_free]
    rw [if_pos ho]

/-- Witness for `release_invalid_pointer_rejection` at concrete invalid
handles (the pointers freed by the self-test: `pool + 7` and
`pool + POOL_SIZE + 1`, and a misaligned fixed-size pointer). -/
theorem release_invalid_pointer_rejection_witness :
    vs_free vsInitState (some 7) false = (vsInitState, FreeOutcome.invalid) ∧
    vs_free vsInitState (some 500) false = (vsInitState, FreeOutcome.invalid) ∧
    fs_free fsInitState (some 7) = (fsInitState, FsFreeResult.invalid) :=
  ⟨release_invalid_pointer_rejection.2.1 vsInitState 7 false (by decide),
   release_invalid_pointer_rejection.2.2.1 vsInitState 500 false (by decide),
   release_invalid_pointer_rejection.2.2.2.2 fsInitState 7 (by decide)⟩

/-- A failing `vs_malloc` performs no mutation: both "Out of memory"
paths return before any write. -/
theorem vs_malloc_none_state {s : VsState} {n : Nat}
    (h : (vs_malloc s n).2 = none) : (vs_malloc s n).1 = s := by
  cases hscan : vsScan n s 0 none with
  | none =>
      have he : vs_malloc s n = (s, none) := by
        unfold vs_malloc
        rw [hscan]
      rw [he]
  | some ib =>
      obtain ⟨i, b⟩ := ib
      have he : vs_malloc s n = vsMallocAt s n i b := by
        unfold vs_malloc
        rw [hscan]
      rw [he] at h ⊢
      rw [vsMallocAt] at h ⊢
      by_cases hb : poolSize < b.addr + headerSize + n
      · simp [hb]
      · by_cases hsplit : n + headerSize ≤ b.size
        · rw [if_neg hb, if_pos hsplit] at h
          simp at h
        · rw [if_neg hb, if_neg hsplit] at h
          simp at h

/-- C8: when `vs_realloc` reaches the copy-and-relocate fallback and the
fresh `vs_malloc` fails, it returns null and the block list is entirely
untouched (the old block keeps its header and is not released; no byte
of the list is written on this path). -/
theorem vs_realloc_fallback_failure (s : VsState) (o : Int) (newSize : Nat) (g : Bool)
    (blk : MemBlock) (onext : Option MemBlock)
    (hne : newSize ≠ 0)
    (hfind : findBlockNext s (o - (headerSize : Int)) = some (blk, onext))
    (hnoshrink : ¬ newSize < blk.size)
    (hnoexpand : vsExpandCond blk onext newSize = false)
    (hfail : (vs_malloc s newSize).2 = none) :
    vs_realloc s (some o) newSize g = some (s, none) := by
  have hstate : vs_malloc s newSize = (s, none) :=
    Prod.ext (vs_malloc_none_state hfail) hfail
  simp [vs_realloc, hne, hfind, hnoshrink, hnoexpand, hstate]

/-- C4 (amended): for a used block whose immediate `next` is free,
`vs_realloc` with `current.size ≤ newSize ≤ current.size + next.size`
(and `newSize ≥ 1`, since `new_size == 0` takes the free path) grows in
place: it returns the same payload offset, absorbs the neighbour, and
always splits off a trailing free block of size
`current.size + next.size − newSize` (possibly zero), preserving
well-formedness of the list.  (For
`current.size + next.size < newSize ≤ current.size + next.size + headerSize`
the claim fails: the remainder size underflows — see the
counterexample.) -/
theorem vs_realloc_grow_in_place
    (L R : List MemBlock) (blk nxt : MemBlock) (newSize : Nat) (g : Bool)
    (hL : ∀ x ∈ L, x.addr ≠ blk.addr)
    (hused : blk.used = true) (hfree : nxt.used = false)
    (hpos : 1 ≤ newSize)
    (hlo : blk.size ≤ newSize) (hhi : newSize ≤ blk.size + nxt.size)
    (hsane : blk.size + nxt.size + headerSize < wordSize) :
    vs_realloc (L ++ blk :: nxt :: R)
        (some ((blk.addr : Int) + (headerSize : Int))) newSize g =
      some (L ++ ⟨blk.addr, newSize, true⟩ ::
              ⟨blk.addr + headerSize + newSize,
               blk.size + nxt.size - newSize, false⟩ :: R,
            some ((blk.addr : Int) + (headerSize : Int))) ∧
    (vsWF (L ++ blk :: nxt :: R) →
      vsWF (L ++ ⟨blk.addr, newSize, true⟩ ::
              ⟨blk.addr + headerSize + newSize,
               blk.size + nxt.size - newSize, false⟩ :: R)) := by
  have hfind : findBlockNext (L ++ blk :: nxt :: R) ((blk.addr : Int)) =
      some (blk, some nxt) := by
    have := findBlockNext_append L blk (nxt :: R)
      (fun x hx => by exact_mod_cast hL x hx) rfl
    simpa using this
  have hcond : vsExpandCond blk (some nxt) newSize = true := by
    show (!nxt.used && decide (newSize ≤ wadd (wadd blk.size nxt.size) headerSize)) = true
    have f0 : wadd blk.size nxt.size = blk.size + nxt.size := wadd_eq (by omega)
    have f1 : wadd (blk.size + nxt.size) headerSize =
        blk.size + nxt.size + headerSize := wadd_eq (by omega)
    rw [hfree, f0, f1]
    simp only [Bool.not_false, Bool.true_and, decide_eq_true_eq]
    omega
  have hgo : vsExpandGo blk.addr newSize (L ++ blk :: nxt :: R) =
      L ++ ⟨blk.addr, newSize, true⟩ ::
        ⟨blk.addr + headerSize + newSize,
         blk.size + nxt.size - newSize, false⟩ :: R := by
    rw [vsExpandGo_skip blk nxt R L hL]
    rw [vsExpandGo, if_pos rfl]
    have e0 : wadd nxt.size headerSize = nxt.size + headerSize := wadd_eq (by omega)
    have e1 : wadd blk.size (nxt.size + headerSize) =
        blk.size + (nxt.size + headerSize) := wadd_eq (by omega)
    have e2 : wsub (blk.size + (nxt.size + headerSize)) newSize =
        blk.size + (nxt.size + headerSize) - newSize :=
      wsub_eq (by omega) (by omega)
    have e3 : wsub (blk.size + (nxt.size + headerSize) - newSize) headerSize =
        blk.size + nxt.size - newSize := by
      rw [wsub_eq (by omega) (by omega)]
      omega
    rw [e0, e1, e2, e3, hused]
  have hne' : ¬ (newSize = 0) := by omega
  have hns : ¬ newSize < blk.size := by omega
  refine ⟨?_, ?_⟩
  · simp only [vs_realloc, if_neg hne', add_sub_cancel_right, hfind, if_neg hns,
      hcond, if_true, hgo]
  · intro hwf
    have hadj : blockEnd blk = nxt.addr := by
      have h2 := hwf.2.1
      unfold wfChain at h2
      rw [List.chain'_append] at h2
      exact (List.chain'_cons.1 h2.2.1).1
    refine vsWF_two_replace hwf rfl rfl ?_
    unfold blockEnd at hadj ⊢
    dsimp only at hadj ⊢
    omega

/-- Witness for `vs_realloc_grow_in_place`: growing the reachable state
`[Used 16 @0, Free 208 @48]` to 100 in place yields
`[Used 100 @0, Free 124 @132]` at the same payload offset. -/
theorem vs_realloc_grow_in_place_witness :
    vs_realloc growState (some 32) 100 false =
      some ([⟨0, 100, true⟩, ⟨132, 124, false⟩], some 32) := by
  have h := vs_realloc_grow_in_place [] [] ⟨0, 16, true⟩ ⟨48, 208, false⟩ 100 false
    (by simp) rfl rfl (by norm_num) (by norm_num) (by norm_num) (by decide)
  have hg : growState = [⟨0, 16, true⟩, ⟨48, 208, false⟩] := by decide
  rw [hg]
  simpa using h.1

/-- Witness for `vs_realloc_fallback_failure`: in the reachable state
`[Used 224 @0, Free 0 @256]`, growing the used block to 300 cannot
expand in place and the fallback allocation fails, so the call returns
null with the state unchanged. -/
theorem vs_realloc_fallback_failure_witness :
    vs_realloc tightState (some 32) 300 false = some (tightState, none) :=
  vs_realloc_fallback_failure tightState 32 300 false ⟨0, 224, true⟩
    (some ⟨256, 0, false⟩) (by decide) (by decide) (by decide) (by decide)
    (by decide)

end RonAlloc
